import Mathlib

/-!
Verification development for the pgnc repository (variation-tree
transformation, diff and optimization engine).

Shallow embedding conventions:

* A chess move is modelled as its SAN token (`String`).  The spec (§3)
  treats a move as an abstract token with equality and a stable textual
  rendering; at a fixed position SAN rendering is injective, so move
  equality along a common path agrees with token equality.
* A `chess.pgn` game tree is `GTree` (comment, NAG list, ordered children,
  each child edge carrying its move token); the `Game` root additionally
  carries the header map (`PGame`).
* Python sets of variation strings are modelled as duplicate-free `List
  String` values (obtained with `List.dedup`); all uses in the source are
  order-insensitive (membership, difference, length) or explicitly sorted.
* `parse_move_sequence` (pgn_processor.py) resolves SAN tokens against a
  board supplied by the external chess library (spec §6); it is modelled
  as a function parameter `ps : String → Option (List String)` where
  `none` models the `ValueError` raised for malformed/illegal sequences.
  `parseNoFail` instantiates it for inputs whose tokens are all legal:
  on such inputs the chess parser returns exactly the cleaned token list,
  i.e. `parse_move_sequence_to_list`.
* Python string operations are embedded on `String.data` (`List Char`):
  `str.replace`, `str.split()`, `str.isdigit`, `str.startswith`,
  `" ".join`, f-string decimal rendering of a `Nat`.
-/

/-! ### Python string primitives (pgn_processor.py / prefix_optimizer.py) -/

/-- Python `token.isdigit()`: nonempty and every character is a digit. -/
def pyIsDigitStr (s : String) : Bool :=
  !s.data.isEmpty && s.data.all Char.isDigit

/-- Character-wise action of Python `move_string.replace(".", " ")`. -/
def replDot (c : Char) : Char := if c = '.' then ' ' else c

/-- Python `move_string.replace(".", " ")`. -/
def pyReplaceDots (s : String) : String := String.mk (s.data.map replDot)

/-- Helper for Python `str.split()`: scans the characters, `acc` holds the
current (reversed) token. -/
def splitChAux : List Char → List Char → List String
  | [], acc => if acc.isEmpty then [] else [String.mk acc.reverse]
  | c :: cs, acc =>
    if c.isWhitespace then
      if acc.isEmpty then splitChAux cs []
      else String.mk acc.reverse :: splitChAux cs []
    else splitChAux cs (c :: acc)

/-- Python `str.split()` with no argument: split on whitespace runs,
dropping empty tokens. -/
def pySplitWs (s : String) : List String := splitChAux s.data []

/-- `parse_move_sequence_to_list` (prefix_optimizer.py): replace dots by
spaces, split on whitespace, drop empty and all-digit tokens.  (The
`token.strip()` in the source is the identity on whitespace-split
tokens.) -/
def parse_move_sequence_to_list (s : String) : List String :=
  (pySplitWs (pyReplaceDots s)).filter (fun t => !pyIsDigitStr t)

/-- One decimal digit character. -/
def digitChar (d : Nat) : Char := Char.ofNat (48 + d % 10)

/-- Fuel-driven decimal rendering (structural so that it reduces in the
kernel); `natDigits` supplies enough fuel for all digits. -/
def natDigitsAux : Nat → Nat → List Char
  | _, 0 => []
  | n, fuel + 1 =>
    if n < 10 then [digitChar n]
    else natDigitsAux (n / 10) fuel ++ [digitChar (n % 10)]

/-- Decimal digit characters of `n`. -/
def natDigits (n : Nat) : List Char := natDigitsAux n (n + 1)

/-- Python f-string decimal rendering of a natural number. -/
def natRepr (n : Nat) : String := String.mk (natDigits n)

/-- The token written for the move at 0-based index `i`:
`_format_move_list_to_pgn` prefixes `"N."` to white (even-index) moves. -/
def numberTok (i : Nat) (m : String) : String :=
  if i % 2 = 0 then natRepr (i / 2 + 1) ++ "." ++ m else m

/-- The enumerated, numbered token list of `_format_move_list_to_pgn`,
starting at index `i`. -/
def numTokens : Nat → List String → List String
  | _, [] => []
  | i, m :: rest => numberTok i m :: numTokens (i + 1) rest

/-- Python `" ".join`. -/
def joinSpace : List String → String
  | [] => ""
  | [x] => x
  | x :: y :: ys => x ++ " " ++ joinSpace (y :: ys)

/-- `_format_move_list_to_pgn` (prefix_optimizer.py) and
`_format_move_sequence` (comparator.py): join the numbered tokens with
single spaces; the empty move list renders as `""`. -/
def format_move_list (moves : List String) : String :=
  joinSpace (numTokens 0 moves)

/-- Python `str.startswith`: the argument is a character-list prefix. -/
def strStartsWith (s p : String) : Bool := p.data.isPrefixOf s.data

/-- The string-level matching used by `_can_use_as_covering_point`:
`game_var == prefix_str or game_var.startswith(prefix_str + " ")`. -/
def strMatchesPfx (v p : String) : Bool := v == p || strStartsWith v (p ++ " ")

/-- A well-formed SAN move token: nonempty, no whitespace, no dot, and not
made of digits only.  Every legal SAN token ("e4", "Nf3", "O-O", "exd5",
"e8=Q+", ...) satisfies this. -/
def goodTokB (m : String) : Bool :=
  !m.data.isEmpty && m.data.all (fun c => !c.isWhitespace && !(c = '.'))
    && !m.data.all Char.isDigit

/-- A well-formed move path: every token well-formed. -/
def goodPathB (p : List String) : Bool := p.all goodTokB

/-- Strict lexicographic comparison of character lists by code point
(Python string `<`). -/
def listCharLt : List Char → List Char → Bool
  | [], [] => false
  | [], _ :: _ => true
  | _ :: _, [] => false
  | a :: xs, b :: ys =>
    if a.val < b.val then true
    else if b.val < a.val then false
    else listCharLt xs ys

/-- Python `<` on strings (lexicographic by code point). -/
def pyStrLt (a b : String) : Bool := listCharLt a.data b.data

/-- Python `<=` on strings, used by `sorted`. -/
def pyStrLe (a b : String) : Bool := pyStrLt a b || a == b

/-- Python `<=` on lists of strings (lexicographic), used by
`covering_set.sort()`. -/
def pyMovesLe : List String → List String → Bool
  | [], _ => true
  | _ :: _, [] => false
  | a :: xs, b :: ys =>
    if pyStrLt a b then true else if a = b then pyMovesLe xs ys else false

/-- Insert into a sorted list (helper for the model of Python sorting). -/
def insertSorted {α : Type} (le : α → α → Bool) (x : α) : List α → List α
  | [] => [x]
  | y :: ys => if le x y then x :: y :: ys else y :: insertSorted le x ys

/-- Model of Python `sorted` / `list.sort` (structural, kernel-reducible;
the claims depend only on the element set, which any sort preserves). -/
def pySort {α : Type} (le : α → α → Bool) : List α → List α
  | [] => []
  | x :: xs => insertSorted le x (pySort le xs)

/-! ### The variation tree (`chess.pgn` game objects) -/

/-- One node of a game's variation tree: its comment, its NAG set and its
ordered child edges, each labelled with the move leading to the child. -/
inductive GTree where
  | node (comment : String) (nags : List Nat) (children : List (String × GTree))

/-- Child list of a node. -/
def GTree.children : GTree → List (String × GTree)
  | .node _ _ ch => ch

/-- Comment of a node. -/
def GTree.comment : GTree → String
  | .node c _ _ => c

/-- NAG set of a node. -/
def GTree.nags : GTree → List Nat
  | .node _ n _ => n

/-- A `chess.pgn.Game`: the header map plus the root node of the tree. -/
structure PGame where
  headers : List (String × String)
  root : GTree

mutual

/-- Leaf move paths of a subtree, relative to the accumulated path `cur`,
in depth-first child order (the traversal of
`extract_all_variation_paths`): a childless node contributes the single
path `cur`. -/
def leafPathsT : GTree → List String → List (List String)
  | .node _ _ [], cur => [cur]
  | .node _ _ (x :: xs), cur => leafPathsF (x :: xs) cur

/-- Leaf paths reachable through a list of child edges. -/
def leafPathsF : List (String × GTree) → List String → List (List String)
  | [], _ => []
  | (m, t) :: rest, cur => leafPathsT t (cur ++ [m]) ++ leafPathsF rest cur

end

/-- `extract_all_variation_paths` (comparator.py) and
`_extract_all_variation_paths_from_game` (prefix_optimizer.py): the set of
formatted leaf paths, modelled as a duplicate-free list. -/
def extract_all_variation_paths (g : PGame) : List String :=
  ((leafPathsT g.root []).map format_move_list).dedup

mutual

/-- Number of leaves of a subtree (`count_variations` traversal). -/
def countLeaves : GTree → Nat
  | .node _ _ [] => 1
  | .node _ _ (x :: xs) => countLeavesF (x :: xs)

/-- Sum of leaf counts over a child list. -/
def countLeavesF : List (String × GTree) → Nat
  | [] => 0
  | (_, t) :: rest => countLeaves t + countLeavesF rest

end

/-- `count_variations` (pgn_processor.py): number of leaf nodes; the
childless root counts as one leaf. -/
def count_variations (g : PGame) : Nat := countLeaves g.root

mutual

/-- Whether the node reached by following `p` (first matching child at
each step, as `_add_variation_to_game` searches) exists. -/
def hasPathB : GTree → List String → Bool
  | _, [] => true
  | .node _ _ ch, m :: rest => hasPathKB ch m rest

/-- Search a child list for move `m`, then follow `rest`. -/
def hasPathKB : List (String × GTree) → String → List String → Bool
  | [], _, _ => false
  | (m', c) :: cs, m, rest => if m' = m then hasPathB c rest else hasPathKB cs m rest

end

mutual

/-- Well-formed game tree: every move token is `goodTokB` and no two
children of one node share a move token (spec §3 invariant; guaranteed by
SAN unambiguity for trees read from PGN). -/
def goodTreeB : GTree → Bool
  | .node _ _ ch => goodKidsB ch

/-- Well-formedness of a child list. -/
def goodKidsB : List (String × GTree) → Bool
  | [] => true
  | (m, c) :: rest =>
    goodTokB m && rest.all (fun p => !(p.1 == m)) && goodTreeB c && goodKidsB rest

end

/-! ### pgn_processor.py: filters, `should_skip_variation`, filtering,
splicing, trimming -/

/-- `models.VariationFilter`: a move-sequence pattern with optional reason
and optional depth guard (pydantic puts no bound on `depth`, hence
`Int`). -/
structure VariationFilter where
  moves : String
  reason : Option String
  depth : Option Int
deriving DecidableEq

/-- `models.Game.action` literal. -/
inductive GameAction where
  | gInclude
  | gSkip
  | gSkipKeepHeaders

/-- `models.Game`: per-game configuration. -/
structure GameConfig where
  index : Nat
  action : GameAction
  name : Option String
  remove_variations : Option (List VariationFilter)
  add_variations : Option (List VariationFilter)
  max_depth : Option Nat
  min_depth : Option Nat

/-- `matches_variation_pattern`: the move path starts with the pattern
(length check plus pointwise equality). -/
def matches_variation_pattern (movePath patternMoves : List String) : Bool :=
  patternMoves.isPrefixOf movePath

/-- The guard test of the remove loop:
`remove_filter.depth and len(move_path) <= remove_filter.depth`
(`continue` when true).  Python truthiness: `None` and `0` are falsy. -/
def removeGuardSkips (d : Option Int) (len : Nat) : Bool :=
  match d with
  | none => false
  | some dv => dv ≠ 0 && (len : Int) ≤ dv

/-- The guard test of the add loop:
`add_filter.depth and len(move_path) > add_filter.depth`
(`continue` when true). -/
def addGuardSkips (d : Option Int) (len : Nat) : Bool :=
  match d with
  | none => false
  | some dv => dv ≠ 0 && (len : Int) > dv

/-- The remove loop of `should_skip_variation`: first filter that parses,
matches and passes its depth guard sets `should_remove`; a filter whose
pattern fails to parse (`ValueError`) is skipped. -/
def shouldRemoveLoop (ps : String → Option (List String)) (movePath : List String) :
    List VariationFilter → Bool
  | [] => false
  | f :: rest =>
    match ps f.moves with
    | none => shouldRemoveLoop ps movePath rest
    | some pm =>
      if matches_variation_pattern movePath pm then
        if removeGuardSkips f.depth movePath.length then shouldRemoveLoop ps movePath rest
        else true
      else shouldRemoveLoop ps movePath rest

/-- The add loop of `should_skip_variation`. -/
def shouldAddLoop (ps : String → Option (List String)) (movePath : List String) :
    List VariationFilter → Bool
  | [] => false
  | f :: rest =>
    match ps f.moves with
    | none => shouldAddLoop ps movePath rest
    | some pm =>
      if matches_variation_pattern movePath pm then
        if addGuardSkips f.depth movePath.length then shouldAddLoop ps movePath rest
        else true
      else shouldAddLoop ps movePath rest

/-- `should_skip_variation`: add overrides remove; default keep.  The
`Option` lists model the `Optional` arguments (`if remove_filters:` is
falsy for both `None` and `[]`, and the loop over `[]` is a no-op, so
`getD []` is faithful). -/
def should_skip_variation (ps : String → Option (List String)) (movePath : List String)
    (removeFilters addFilters : Option (List VariationFilter)) : Bool :=
  let sr := shouldRemoveLoop ps movePath (removeFilters.getD [])
  let sa := shouldAddLoop ps movePath (addFilters.getD [])
  if sa then false
  else if sr then true
  else false

mutual

/-- `traverse_and_filter`: rebuild the child list, dropping every edge
whose extended path `cur ++ [m]` is skipped; kept edges copy comment and
NAGs verbatim and recurse with the extended path. -/
def filterKids (ps : String → Option (List String))
    (rem add : Option (List VariationFilter)) :
    List (String × GTree) → List String → List (String × GTree)
  | [], _ => []
  | (m, t) :: rest, cur =>
    if should_skip_variation ps (cur ++ [m]) rem add then
      filterKids ps rem add rest cur
    else
      (m, filterNode ps rem add t (cur ++ [m])) :: filterKids ps rem add rest cur

/-- Rebuild one kept node (comment and NAGs copied, children filtered). -/
def filterNode (ps : String → Option (List String))
    (rem add : Option (List VariationFilter)) : GTree → List String → GTree
  | .node c n ch, cur => .node c n (filterKids ps rem add ch cur)

end

/-- Generic first-match association update used to model walking/creating
child nodes: apply `f` to the first child carrying move `m`, or append
`(m, dflt)` when absent (`add_variation` appends). -/
def updAssoc {α : Type} (m : String) (f : α → α) (dflt : α) :
    List (String × α) → List (String × α)
  | [] => [(m, dflt)]
  | (m', c) :: cs =>
    if m' = m then (m', f c) :: cs else (m', c) :: updAssoc m f dflt cs

/-- `_add_variation_to_game`: walk the moves, descending into the first
existing child with the same move, creating fresh empty nodes otherwise;
an empty move list leaves the game unchanged. -/
def spliceTree : GTree → List String → GTree
  | t, [] => t
  | .node c n ch, m :: rest =>
    .node c n
      (updAssoc m (fun u => spliceTree u rest) (spliceTree (.node "" [] []) rest) ch)

/-- The add-splice loop at the end of `filter_game_variations`: every
add-filter whose pattern parses is spliced in; parse failures are
skipped. -/
def spliceAll (ps : String → Option (List String)) (t : GTree) :
    List VariationFilter → GTree
  | [] => t
  | f :: rest =>
    match ps f.moves with
    | none => spliceAll ps t rest
    | some moves => spliceAll ps (spliceTree t moves) rest

/-- `filter_game_variations`: skip yields no game; skip-keep-headers yields
a bare root with the copied headers; include rebuilds the tree under the
filters (fresh root: empty comment and NAG set) and then splices in every
parsable add pattern. -/
def filter_game_variations (ps : String → Option (List String))
    (g : PGame) (cfg : GameConfig) : Option PGame :=
  match cfg.action with
  | .gSkip => none
  | .gSkipKeepHeaders => some ⟨g.headers, .node "" [] []⟩
  | .gInclude =>
    let filtered : GTree :=
      .node "" []
        (filterKids ps cfg.remove_variations cfg.add_variations g.root.children [])
    let withAdds := spliceAll ps filtered (cfg.add_variations.getD [])
    some ⟨g.headers, withAdds⟩

mutual

/-- `traverse_and_trim`'s work on the children of a node sitting at
`depth` (< `maxD`): each child is re-added with comment and NAGs copied
and recursively trimmed at `depth + 1`. -/
def trimKids (maxD : Nat) : List (String × GTree) → Nat → List (String × GTree)
  | [], _ => []
  | (m, t) :: rest, depth => (m, trimNodeAt maxD t (depth + 1)) :: trimKids maxD rest depth

/-- A re-added node at `depth`: children are kept only while
`depth < maxD` (the `if depth >= max_depth: return` cut). -/
def trimNodeAt (maxD : Nat) : GTree → Nat → GTree
  | .node c n ch, depth =>
    .node c n (if maxD ≤ depth then [] else trimKids maxD ch depth)

end

/-- `trim_game_depth`: fresh game, headers copied; with `max_depth = 0`
the root keeps only the source root's comment; otherwise children are
rebuilt from depth 0 (fresh root comment/NAGs, as in the source). -/
def trim_game_depth (g : PGame) (maxD : Nat) : PGame :=
  if maxD = 0 then ⟨g.headers, .node g.root.comment [] []⟩
  else ⟨g.headers, .node "" [] (trimKids maxD g.root.children 0)⟩

/-! ### prefix_optimizer.py: PrefixTree, covering set, optimize -/

/-- `PrefixNode`: leaf-of-interest flag and insertion-ordered children
(Python dict preserves insertion order; the `move` and unused
`traversal_order` fields are represented by the association key). -/
inductive PNode where
  | mk (isLeaf : Bool) (children : List (String × PNode))

/-- Children of a `PNode`. -/
def PNode.children : PNode → List (String × PNode)
  | .mk _ ch => ch

/-- Leaf-of-interest flag of a `PNode`. -/
def PNode.isLeaf : PNode → Bool
  | .mk f _ => f

/-- `PrefixTree.insert`: walk the moves creating missing children, mark the
final node as leaf-of-interest. -/
def insertPT : PNode → List String → PNode
  | .mk _ ch, [] => .mk true ch
  | .mk f ch, m :: rest =>
    .mk f (updAssoc m (fun c => insertPT c rest) (insertPT (.mk false []) rest) ch)

/-- Build the `PrefixTree` of `optimize_variation_list`: insert the parsed
move list of every variation string into an initially empty tree. -/
def buildPT (variations : List String) : PNode :=
  variations.foldl (fun t v => insertPT t (parse_move_sequence_to_list v)) (.mk false [])

/-- `_can_use_as_covering_point`: format the candidate, collect every game
variation equal to it or extending it (string prefix followed by a
space), fail on an empty match list, and demand that every match is in
the removal set. -/
def can_use_as_covering_point (pfxMoves : List String)
    (variationsToRemove allGameVariations : List String) : Bool :=
  let pstr := format_move_list pfxMoves
  let matching := allGameVariations.filter (fun v => strMatchesPfx v pstr)
  if matching.isEmpty then false
  else matching.all (fun v => variationsToRemove.contains v)

mutual

/-- The DFS of `find_minimal_covering_set_validated` at one `PrefixNode`
with accumulated absolute path `path`: a childless node emits `path` iff
it is a leaf-of-interest; an internal node emits `path` when the
validation succeeds (and the game variation set is non-empty, Python
truthiness), else recurses into its children. -/
def coverNode (toRemove allVars : List String) : PNode → List String → List (List String)
  | .mk isLf [], path => if isLf then [path] else []
  | .mk _ (x :: xs), path =>
    if !allVars.isEmpty && can_use_as_covering_point path toRemove allVars then [path]
    else coverKids toRemove allVars (x :: xs) path

/-- DFS over a child list, in stored order. -/
def coverKids (toRemove allVars : List String) :
    List (String × PNode) → List String → List (List String)
  | [], _ => []
  | (m, c) :: rest, path =>
    coverNode toRemove allVars c (path ++ [m]) ++ coverKids toRemove allVars rest path

end

/-- `PrefixTree.find_minimal_covering_set_validated`: run the DFS from
every root child (the root itself is never emitted). -/
def find_minimal_covering_set_validated (t : PNode)
    (variationsToRemove allGameVariations : List String) : List (List String) :=
  coverKids variationsToRemove allGameVariations t.children []

/-- `optimize_variation_list`: empty input yields `[]`; otherwise build the
prefix tree, compute the validated covering set against the reference
game's variation set, sort it and format each element. -/
def optimize_variation_list (variations : List String) (referenceGame : Option PGame) :
    List String :=
  if variations.isEmpty then []
  else
    let allGameVariations : List String :=
      match referenceGame with
      | none => []
      | some g => extract_all_variation_paths g
    let tree := buildPT variations
    let coveringSet := find_minimal_covering_set_validated tree variations allGameVariations
    let sortedCov := pySort pyMovesLe coveringSet
    sortedCov.map format_move_list

/-! ### comparator.py: set difference, remove application, compare_games -/

/-- Python set difference `s1 - s2` on variation sets (duplicate-free
lists). -/
def listSdiff (l1 l2 : List String) : List String :=
  l1.filter (fun v => !l2.contains v)

/-- `ComparisonResult` (comparator.py). -/
structure ComparisonResult where
  game1_index : Nat
  game2_index : Nat
  game1_name : String
  game2_name : String
  added_variations : List String
  removed_variations : List String
  total_variations_game1 : Nat
  total_variations_game2 : Nat

/-- `_apply_remove_variations`: with no removals return the game itself;
otherwise filter through a fresh include-config whose remove filters are
the given move strings (no reasons, no depth guards, no add filters).
The `include` branch of `filter_game_variations` always returns a game;
the impossible `none` is mapped back to `g`. -/
def apply_remove_variations (ps : String → Option (List String)) (g : PGame)
    (removeVariations : List String) : PGame :=
  if removeVariations.isEmpty then g
  else
    let filters := removeVariations.map (fun mv => VariationFilter.mk mv none none)
    let cfg : GameConfig := ⟨1, .gInclude, none, some filters, none, none, none⟩
    match filter_game_variations ps g cfg with
    | some h => h
    | none => g

/-- Python truthiness of the `max_depth: int = None` parameter of
`compare_games` (`if max_depth:`): `None` and `0` are falsy. -/
def truthyNat : Option Nat → Bool
  | none => false
  | some n => n ≠ 0

/-- Header lookup with default, modelling `headers.get(key, default)`. -/
def headerGet (hs : List (String × String)) (key dflt : String) : String :=
  match hs.find? (fun p => p.1 == key) with
  | some p => p.2
  | none => dflt

/-- `compare_games`: optionally trim both games, phase 1 computes and
optimizes the removed variations against (trimmed) game1, phase 2 applies
them to obtain game1', computes and optimizes the added variations
against game1'. -/
def compare_games (ps : String → Option (List String)) (game1 game2 : PGame)
    (game1Index game2Index : Nat) (maxDepth : Option Nat) : ComparisonResult :=
  let g1 := if truthyNat maxDepth then trim_game_depth game1 (maxDepth.getD 0) else game1
  let g2 := if truthyNat maxDepth then trim_game_depth game2 (maxDepth.getD 0) else game2
  let variations1 := extract_all_variation_paths g1
  let variations2 := extract_all_variation_paths g2
  let toRemoveList := pySort pyStrLe (listSdiff variations1 variations2)
  let optimizedRemoved := optimize_variation_list toRemoveList (some g1)
  let game1Prime := apply_remove_variations ps g1 optimizedRemoved
  let variations1Prime := extract_all_variation_paths game1Prime
  let toAddList := pySort pyStrLe (listSdiff variations2 variations1Prime)
  let optimizedAdded := optimize_variation_list toAddList (some game1Prime)
  { game1_index := game1Index
    game2_index := game2Index
    game1_name := headerGet g1.headers "White" ("Game " ++ natRepr game1Index)
    game2_name := headerGet g2.headers "White" ("Game " ++ natRepr game2Index)
    added_variations := optimizedAdded
    removed_variations := optimizedRemoved
    total_variations_game1 := variations1.length
    total_variations_game2 := variations2.length }

/-- Instantiation of the abstract SAN parse for inputs all of whose tokens
are legal in context (the case for every pattern produced by
`compare_games` itself, since those are paths of real games): the chess
parser then returns exactly the cleaned token list. -/
def parseNoFail (s : String) : Option (List String) :=
  some (parse_move_sequence_to_list s)

/-- The replay configuration of the diff replay law: action include,
remove patterns the optimized removed list, add patterns the optimized
added list (exactly the game entry emitted by
`yaml_generator.generate_replication_yaml`). -/
def replayConfig (r : ComparisonResult) : GameConfig :=
  ⟨1, .gInclude, none,
    some (r.removed_variations.map (fun mv => VariationFilter.mk mv none none)),
    some (r.added_variations.map (fun mv => VariationFilter.mk mv none none)),
    none, none⟩

/-! ### Concrete games used in counterexamples and witnesses -/

def cexOldGame : PGame :=
  ⟨[], .node "" [] [("e4", .node "" []
    [("e5", .node "" [] []), ("c5", .node "" [] [])])]⟩

def cexNewGame : PGame := ⟨[], .node "" [] [("e4", .node "" [] [])]⟩

def cexRefSound : PGame :=
  ⟨[], .node "" [] [("e4", .node "" [] [("c5", .node "" [] [])])]⟩

def cexRefExact : PGame :=
  ⟨[], .node "" [] [("d4", .node "" [] [("d5", .node "" [] [])])]⟩

def specTreeA : PGame :=
  ⟨[], .node "" []
    [("e4", .node "" []
      [("c5", .node "" [] [("Nf3", .node "" []
        [("d6", .node "" [] []), ("Nc6", .node "" [] [])])]),
       ("e5", .node "" [] [])])]⟩

def parseDemo (s : String) : Option (List String) :=
  if s = "??" then none else some (parse_move_sequence_to_list s)

mutual

/-- All paths of a `PNode` subtree ending at a leaf-of-interest node. -/
def ptPaths : PNode → List (List String)
  | .mk f ch => (if f then [[]] else []) ++ ptPathsK ch

/-- Marked paths through a child list. -/
def ptPathsK : List (String × PNode) → List (List String)
  | [] => []
  | (m, c) :: rest => (ptPaths c).map (fun q => m :: q) ++ ptPathsK rest

end

mutual

/-- Every childless node of the subtree is a leaf-of-interest (true for
every tree built by `insert` from the empty tree). -/
def leafMarkedB : PNode → Bool
  | .mk f [] => f
  | .mk _ (x :: xs) => leafMarkedKB (x :: xs)

/-- `leafMarkedB` over a child list. -/
def leafMarkedKB : List (String × PNode) → Bool
  | [] => true
  | (_, c) :: rest => leafMarkedB c && leafMarkedKB rest

end


/-! ### Character and digit lemmas -/

theorem strMk_data (s : String) : String.mk s.data = s := by
  cases s; rfl

theorem str_eq_of_data_eq {s t : String} (h : s.data = t.data) : s = t := by
  cases s; cases t; exact congrArg String.mk h

theorem isDigit_not_ws {c : Char} (h : c.isDigit = true) : c.isWhitespace = false := by
  cases hw : c.isWhitespace
  · rfl
  · exfalso
    have hw' : (c = ' ' || c = '\t' || c = '\r' || c = '\n') = true := hw
    have hd : ((c = ' ' ∨ c = '\t') ∨ c = '\x0d') ∨ c = '\n' := by simpa using hw'
    rcases hd with ((rfl | rfl) | rfl) | rfl <;> exact absurd h (by decide)

theorem isDigit_ne_dot {c : Char} (h : c.isDigit = true) : c ≠ '.' := by
  rintro rfl; exact absurd h (by decide)

theorem replDot_eq_self {c : Char} (h : c ≠ '.') : replDot c = c := by
  simp [replDot, h]

theorem map_replDot_id {l : List Char} (h : ∀ c ∈ l, c ≠ '.') : l.map replDot = l := by
  induction l with
  | nil => rfl
  | cons c cs ih =>
    simp only [List.map_cons]
    rw [replDot_eq_self (h c (by simp)), ih (fun x hx => h x (by simp [hx]))]

theorem digitChar_isDigit (d : Nat) : (digitChar d).isDigit = true := by
  have h : d % 10 < 10 := Nat.mod_lt _ (by norm_num)
  unfold digitChar
  generalize d % 10 = e at h
  interval_cases e <;> decide

theorem natDigitsAux_digits :
    ∀ fuel n, ∀ c ∈ natDigitsAux n fuel, c.isDigit = true := by
  intro fuel
  induction fuel with
  | zero => intro n c hc; simp [natDigitsAux] at hc
  | succ fuel ih =>
    intro n c hc
    unfold natDigitsAux at hc
    by_cases hn : n < 10
    · simp only [if_pos hn, List.mem_singleton] at hc
      subst hc; exact digitChar_isDigit n
    · simp only [if_neg hn, List.mem_append, List.mem_singleton] at hc
      rcases hc with hc | hc
      · exact ih (n / 10) c hc
      · subst hc; exact digitChar_isDigit (n % 10)

theorem natDigits_digits {n : Nat} : ∀ c ∈ natDigits n, c.isDigit = true :=
  natDigitsAux_digits (n + 1) n

theorem natDigits_ne_nil (n : Nat) : natDigits n ≠ [] := by
  unfold natDigits natDigitsAux
  by_cases hn : n < 10 <;> simp [hn]

/-! ### `goodTokB` unpacking -/

theorem goodTok_ne_nil {m : String} (h : goodTokB m = true) : m.data ≠ [] := by
  unfold goodTokB at h
  simp only [Bool.and_eq_true] at h
  simpa using h.1.1

theorem goodTok_nonws {m : String} (h : goodTokB m = true) :
    ∀ c ∈ m.data, c.isWhitespace = false := by
  unfold goodTokB at h
  simp only [Bool.and_eq_true, List.all_eq_true] at h
  intro c hc
  have := h.1.2 c hc
  simp only [Bool.and_eq_true, Bool.not_eq_true'] at this
  exact this.1

theorem goodTok_no_dot {m : String} (h : goodTokB m = true) :
    ∀ c ∈ m.data, c ≠ '.' := by
  unfold goodTokB at h
  simp only [Bool.and_eq_true, List.all_eq_true] at h
  intro c hc
  have := h.1.2 c hc
  simp only [Bool.and_eq_true, Bool.not_eq_true', decide_eq_false_iff_not] at this
  exact this.2

theorem goodTok_not_digits {m : String} (h : goodTokB m = true) :
    pyIsDigitStr m = false := by
  unfold goodTokB at h
  simp only [Bool.and_eq_true] at h
  have hall : m.data.all Char.isDigit = false := by simpa using h.2
  simp [pyIsDigitStr, hall]

theorem pyIsDigitStr_digits {l : List Char} (hne : l ≠ [])
    (hd : ∀ c ∈ l, c.isDigit = true) : pyIsDigitStr (String.mk l) = true := by
  unfold pyIsDigitStr
  have h1 : l.isEmpty = false := by
    cases l with
    | nil => exact absurd rfl hne
    | cons a t => rfl
  simp only [h1, List.all_eq_true, Bool.not_false, Bool.true_and]
  exact hd

/-! ### `splitChAux` lemmas -/

theorem splitChAux_nonws_shift {tok : List Char}
    (h : ∀ c ∈ tok, c.isWhitespace = false) :
    ∀ l acc, splitChAux (tok ++ l) acc = splitChAux l (tok.reverse ++ acc) := by
  induction tok with
  | nil => intro l acc; simp
  | cons c cs ih =>
    intro l acc
    have hc : c.isWhitespace = false := h c (by simp)
    simp only [List.cons_append, splitChAux, hc, Bool.false_eq_true, if_false]
    rw [show cs.append l = cs ++ l from rfl, ih (fun x hx => h x (by simp [hx])) l (c :: acc)]
    simp

theorem splitChAux_ws_cons (rest acc : List Char) (hacc : acc ≠ []) :
    splitChAux (' ' :: rest) acc = String.mk acc.reverse :: splitChAux rest [] := by
  have hae : acc.isEmpty = false := by
    cases acc with
    | nil => exact absurd rfl hacc
    | cons a t => rfl
  have hw : (' ' : Char).isWhitespace = true := by decide
  simp [splitChAux, hw, hae]

theorem splitChAux_nil_acc (acc : List Char) (hacc : acc ≠ []) :
    splitChAux [] acc = [String.mk acc.reverse] := by
  have hae : acc.isEmpty = false := by
    cases acc with
    | nil => exact absurd rfl hacc
    | cons a t => rfl
  simp [splitChAux, hae]

theorem splitChAux_token_cons {tok : List Char} (rest : List Char) (hne : tok ≠ [])
    (h : ∀ c ∈ tok, c.isWhitespace = false) :
    splitChAux (tok ++ ' ' :: rest) [] = String.mk tok :: splitChAux rest [] := by
  rw [splitChAux_nonws_shift h (' ' :: rest) []]
  rw [List.append_nil]
  rw [splitChAux_ws_cons rest tok.reverse (by simpa using hne)]
  rw [List.reverse_reverse]

theorem splitChAux_token_nil {tok : List Char} (hne : tok ≠ [])
    (h : ∀ c ∈ tok, c.isWhitespace = false) :
    splitChAux tok [] = [String.mk tok] := by
  have hshift := splitChAux_nonws_shift h [] []
  rw [List.append_nil] at hshift
  rw [hshift, List.append_nil]
  rw [splitChAux_nil_acc tok.reverse (by simpa using hne)]
  rw [List.reverse_reverse]

/-! ### Formatting / parsing roundtrip -/

theorem strAppend_data (a b : String) : (a ++ b).data = a.data ++ b.data :=
  String.data_append a b

theorem numberTok_data_even {i : Nat} (hi : i % 2 = 0) (m : String) :
    (numberTok i m).data = natDigits (i / 2 + 1) ++ '.' :: m.data := by
  unfold numberTok
  rw [if_pos hi, strAppend_data, strAppend_data]
  show natDigits (i / 2 + 1) ++ ['.'] ++ m.data = _
  simp

theorem numberTok_data_odd {i : Nat} (hi : ¬ i % 2 = 0) (m : String) :
    (numberTok i m).data = m.data := by
  unfold numberTok
  rw [if_neg hi]

theorem natDigits_nonws (n : Nat) : ∀ c ∈ natDigits n, c.isWhitespace = false :=
  fun c hc => isDigit_not_ws (natDigits_digits c hc)

theorem natDigits_no_dot (n : Nat) : ∀ c ∈ natDigits n, c ≠ '.' :=
  fun c hc => isDigit_ne_dot (natDigits_digits c hc)

theorem numberTok_repl_even {i : Nat} (hi : i % 2 = 0) {m : String}
    (hm : goodTokB m = true) :
    (numberTok i m).data.map replDot = natDigits (i / 2 + 1) ++ ' ' :: m.data := by
  rw [numberTok_data_even hi, List.map_append, List.map_cons]
  rw [map_replDot_id (natDigits_no_dot _), map_replDot_id (goodTok_no_dot hm)]
  rfl

theorem numberTok_repl_odd {i : Nat} (hi : ¬ i % 2 = 0) {m : String}
    (hm : goodTokB m = true) :
    (numberTok i m).data.map replDot = m.data := by
  rw [numberTok_data_odd hi, map_replDot_id (goodTok_no_dot hm)]

theorem split_numberTok_cons (i : Nat) {m : String} (hm : goodTokB m = true)
    (t : List Char) :
    (splitChAux ((numberTok i m).data.map replDot ++ ' ' :: t) []).filter
        (fun x => !pyIsDigitStr x)
      = m :: (splitChAux t []).filter (fun x => !pyIsDigitStr x) := by
  by_cases hi : i % 2 = 0
  · rw [numberTok_repl_even hi hm]
    rw [List.append_assoc, List.cons_append]
    rw [splitChAux_token_cons _ (natDigits_ne_nil _) (natDigits_nonws _)]
    rw [splitChAux_token_cons _ (goodTok_ne_nil hm) (goodTok_nonws hm)]
    rw [List.filter_cons, List.filter_cons]
    rw [pyIsDigitStr_digits (natDigits_ne_nil _) natDigits_digits]
    rw [strMk_data, goodTok_not_digits hm]
    rfl
  · rw [numberTok_repl_odd hi hm]
    rw [splitChAux_token_cons _ (goodTok_ne_nil hm) (goodTok_nonws hm)]
    rw [List.filter_cons, strMk_data, goodTok_not_digits hm]
    rfl

theorem split_numberTok_nil (i : Nat) {m : String} (hm : goodTokB m = true) :
    (splitChAux ((numberTok i m).data.map replDot) []).filter
        (fun x => !pyIsDigitStr x) = [m] := by
  by_cases hi : i % 2 = 0
  · rw [numberTok_repl_even hi hm]
    rw [splitChAux_token_cons _ (natDigits_ne_nil _) (natDigits_nonws _)]
    rw [splitChAux_token_nil (goodTok_ne_nil hm) (goodTok_nonws hm)]
    rw [List.filter_cons, List.filter_cons]
    rw [pyIsDigitStr_digits (natDigits_ne_nil _) natDigits_digits]
    rw [strMk_data, goodTok_not_digits hm]
    rfl
  · rw [numberTok_repl_odd hi hm]
    rw [splitChAux_token_nil (goodTok_ne_nil hm) (goodTok_nonws hm)]
    rw [List.filter_cons, strMk_data, goodTok_not_digits hm]
    rfl

theorem goodPath_head {m : String} {rest : List String}
    (h : goodPathB (m :: rest) = true) : goodTokB m = true := by
  unfold goodPathB at h
  simp only [List.all_cons, Bool.and_eq_true] at h
  exact h.1

theorem goodPath_tail {m : String} {rest : List String}
    (h : goodPathB (m :: rest) = true) : goodPathB rest = true := by
  unfold goodPathB at h ⊢
  simp only [List.all_cons, Bool.and_eq_true] at h
  exact h.2

theorem parse_fmt_aux (ms : List String) (hms : goodPathB ms = true) :
    ∀ i, (splitChAux ((joinSpace (numTokens i ms)).data.map replDot) []).filter
        (fun x => !pyIsDigitStr x) = ms := by
  induction ms with
  | nil => intro i; rfl
  | cons m rest ih =>
    intro i
    cases rest with
    | nil =>
      show (splitChAux ((numberTok i m).data.map replDot) []).filter _ = [m]
      exact split_numberTok_nil i (goodPath_head hms)
    | cons m' rest' =>
      have hjoin :
          joinSpace (numTokens i (m :: m' :: rest'))
            = numberTok i m ++ " " ++ joinSpace (numTokens (i + 1) (m' :: rest')) := rfl
      rw [hjoin, strAppend_data, strAppend_data]
      have hsp : (" " : String).data = [' '] := rfl
      rw [hsp, List.append_assoc]
      show (splitChAux (((numberTok i m).data ++ ' ' ::
          (joinSpace (numTokens (i + 1) (m' :: rest'))).data).map replDot) []).filter _ = _
      rw [List.map_append, List.map_cons]
      have hrd : replDot ' ' = ' ' := rfl
      rw [hrd]
      rw [split_numberTok_cons i (goodPath_head hms)]
      rw [ih (goodPath_tail hms) (i + 1)]

theorem parse_fmt_tail_aux (ms : List String) (hms : goodPathB ms = true)
    (hne : ms ≠ []) :
    ∀ i (t : List Char),
      (splitChAux ((joinSpace (numTokens i ms)).data.map replDot ++ ' ' :: t) []).filter
          (fun x => !pyIsDigitStr x)
        = ms ++ (splitChAux t []).filter (fun x => !pyIsDigitStr x) := by
  induction ms with
  | nil => exact absurd rfl hne
  | cons m rest ih =>
    intro i t
    cases rest with
    | nil =>
      show (splitChAux ((numberTok i m).data.map replDot ++ ' ' :: t) []).filter _ = _
      rw [split_numberTok_cons i (goodPath_head hms)]
      rfl
    | cons m' rest' =>
      have hjoin :
          joinSpace (numTokens i (m :: m' :: rest'))
            = numberTok i m ++ " " ++ joinSpace (numTokens (i + 1) (m' :: rest')) := rfl
      rw [hjoin, strAppend_data, strAppend_data]
      have hsp : (" " : String).data = [' '] := rfl
      rw [hsp, List.append_assoc]
      show (splitChAux ((((numberTok i m).data ++ ' ' ::
          (joinSpace (numTokens (i + 1) (m' :: rest'))).data).map replDot) ++ ' ' :: t) []).filter _ = _
      rw [List.map_append, List.map_cons]
      have hrd : replDot ' ' = ' ' := rfl
      rw [hrd, List.append_assoc, List.cons_append]
      rw [split_numberTok_cons i (goodPath_head hms)]
      rw [ih (goodPath_tail hms) (by simp) (i + 1) t]
      rfl

theorem parse_format {ms : List String} (h : goodPathB ms = true) :
    parse_move_sequence_to_list (format_move_list ms) = ms := by
  show (splitChAux ((joinSpace (numTokens 0 ms)).data.map replDot) []).filter
      (fun x => !pyIsDigitStr x) = ms
  exact parse_fmt_aux ms h 0

theorem format_inj {p q : List String} (hp : goodPathB p = true)
    (hq : goodPathB q = true) (h : format_move_list p = format_move_list q) : p = q := by
  have h2 := congrArg parse_move_sequence_to_list h
  rw [parse_format hp, parse_format hq] at h2
  exact h2

/-! ### Formatting of appended paths; the string-match bridge -/

theorem numTokens_append :
    ∀ (a : List String) (i : Nat) (b : List String),
      numTokens i (a ++ b) = numTokens i a ++ numTokens (i + a.length) b := by
  intro a
  induction a with
  | nil => intro i b; simp [numTokens]
  | cons m a' ih =>
    intro i b
    show numberTok i m :: numTokens (i + 1) (a' ++ b) = _
    rw [ih (i + 1) b]
    have : i + 1 + a'.length = i + (m :: a').length := by simp; omega
    rw [this]
    rfl

theorem numTokens_ne_nil {ms : List String} (h : ms ≠ []) (i : Nat) :
    numTokens i ms ≠ [] := by
  cases ms with
  | nil => exact absurd rfl h
  | cons m rest => simp [numTokens]

theorem strAppend_assoc (a b c : String) : a ++ b ++ c = a ++ (b ++ c) := by
  apply str_eq_of_data_eq
  rw [strAppend_data, strAppend_data, strAppend_data, strAppend_data, List.append_assoc]

theorem joinSpace_append :
    ∀ (xs ys : List String), xs ≠ [] → ys ≠ [] →
      joinSpace (xs ++ ys) = joinSpace xs ++ " " ++ joinSpace ys := by
  intro xs
  induction xs with
  | nil => intro ys h _; exact absurd rfl h
  | cons x xs' ih =>
    intro ys _ hys
    cases xs' with
    | nil =>
      cases ys with
      | nil => exact absurd rfl hys
      | cons y ys' => rfl
    | cons x2 xs'' =>
      show x ++ " " ++ joinSpace ((x2 :: xs'') ++ ys) = _
      rw [ih ys (by simp) hys,
        show joinSpace (x :: x2 :: xs'') = x ++ " " ++ joinSpace (x2 :: xs'') from rfl]
      apply str_eq_of_data_eq
      simp only [strAppend_data, List.append_assoc]

theorem fmt_data_cons_ne_nil (i : Nat) (m : String) (rest : List String)
    (hm : goodTokB m = true) :
    (joinSpace (numTokens i (m :: rest))).data ≠ [] := by
  cases rest with
  | nil =>
    show (numberTok i m).data ≠ []
    by_cases hi : i % 2 = 0
    · rw [numberTok_data_even hi]; simp
    · rw [numberTok_data_odd hi]; exact goodTok_ne_nil hm
  | cons m' rest' =>
    have hjoin :
        joinSpace (numTokens i (m :: m' :: rest'))
          = numberTok i m ++ " " ++ joinSpace (numTokens (i + 1) (m' :: rest')) := rfl
    rw [hjoin, strAppend_data, strAppend_data]
    simp

theorem format_ne_empty {p : List String} (hp : goodPathB p = true) (hne : p ≠ []) :
    format_move_list p ≠ "" := by
  cases p with
  | nil => exact absurd rfl hne
  | cons m rest =>
    intro hc
    exact fmt_data_cons_ne_nil 0 m rest (goodPath_head hp) (congrArg String.data hc)

theorem parse_fmt0 {q : List String} (hq : goodPathB q = true) :
    (splitChAux ((format_move_list q).data.map replDot) []).filter
      (fun x => !pyIsDigitStr x) = q :=
  parse_fmt_aux q hq 0

theorem parse_fmt0_tail {p : List String} (hp : goodPathB p = true) (hpne : p ≠ [])
    (t : List Char) :
    (splitChAux ((format_move_list p).data.map replDot ++ ' ' :: t) []).filter
        (fun x => !pyIsDigitStr x)
      = p ++ (splitChAux t []).filter (fun x => !pyIsDigitStr x) :=
  parse_fmt_tail_aux p hp hpne 0 t

theorem strMatches_fmt_iff {p q : List String} (hp : goodPathB p = true)
    (hq : goodPathB q = true) (hpne : p ≠ []) :
    strMatchesPfx (format_move_list q) (format_move_list p) = true ↔ p <+: q := by
  unfold strMatchesPfx
  rw [Bool.or_eq_true]
  constructor
  · rintro (h | h)
    · have heq : format_move_list q = format_move_list p := beq_iff_eq.mp h
      rw [format_inj hq hp heq]
    · unfold strStartsWith at h
      rw [ List.isPrefixOf_iff_prefix] at h
      rcases h with ⟨t, ht⟩
      rw [strAppend_data] at ht
      have ht' : (format_move_list q).data
          = (format_move_list p).data ++ ' ' :: t := by
        have hsp : (" " : String).data = [' '] := rfl
        rw [← ht, hsp, List.append_assoc]
        rfl
      have hq2 := parse_fmt0 hq
      rw [ht', List.map_append, List.map_cons,
        show replDot ' ' = ' ' from rfl] at hq2
      rw [parse_fmt0_tail hp hpne (t.map replDot)] at hq2
      exact ⟨_, hq2⟩
  · rintro ⟨r, rfl⟩
    cases r with
    | nil =>
      left
      rw [List.append_nil]
      exact beq_iff_eq.mpr rfl
    | cons x r' =>
      right
      unfold strStartsWith
      rw [ List.isPrefixOf_iff_prefix]
      have hfmt : format_move_list (p ++ x :: r')
          = format_move_list p ++ " " ++ joinSpace (numTokens (0 + p.length) (x :: r')) := by
        unfold format_move_list
        rw [numTokens_append p 0 (x :: r')]
        rw [joinSpace_append _ _ (numTokens_ne_nil hpne 0) (numTokens_ne_nil (by simp) _)]
      rw [hfmt, strAppend_data]
      exact ⟨_, rfl⟩

/-! ### Sorting membership -/

theorem mem_insertSorted {α : Type} (le : α → α → Bool) (x a : α) :
    ∀ l, a ∈ insertSorted le x l ↔ a = x ∨ a ∈ l := by
  intro l
  induction l with
  | nil => simp [insertSorted]
  | cons y ys ih =>
    unfold insertSorted
    by_cases hle : le x y = true
    · simp [hle]
    · simp only [Bool.not_eq_true] at hle
      simp only [hle, Bool.false_eq_true, if_false, List.mem_cons, ih]
      tauto

theorem mem_pySort {α : Type} (le : α → α → Bool) (a : α) :
    ∀ l, a ∈ pySort le l ↔ a ∈ l := by
  intro l
  induction l with
  | nil => simp [pySort]
  | cons x xs ih =>
    unfold pySort
    rw [mem_insertSorted, ih]
    simp

/-! ### Game-tree leaf-path lemmas -/

mutual

theorem leafPathsT_extends (t : GTree) (cur p : List String)
    (hp : p ∈ leafPathsT t cur) : cur <+: p := by
  match t with
  | .node c n [] =>
    unfold leafPathsT at hp
    simp only [List.mem_singleton] at hp
    exact hp ▸ List.prefix_refl _
  | .node c n (x :: xs) =>
    unfold leafPathsT at hp
    exact leafPathsF_extends (x :: xs) cur p hp

theorem leafPathsF_extends (ch : List (String × GTree)) (cur p : List String)
    (hp : p ∈ leafPathsF ch cur) : cur <+: p := by
  match ch with
  | [] => exact absurd hp (by simp [leafPathsF])
  | (m, c) :: rest =>
    unfold leafPathsF at hp
    rcases List.mem_append.mp hp with h | h
    · exact (List.prefix_append cur [m]).trans (leafPathsT_extends c (cur ++ [m]) p h)
    · exact leafPathsF_extends rest cur p h

end

theorem leafPathsF_mem_split (ch : List (String × GTree)) (cur p : List String)
    (hp : p ∈ leafPathsF ch cur) :
    ∃ mc ∈ ch, p ∈ leafPathsT mc.2 (cur ++ [mc.1]) := by
  induction ch with
  | nil => exact absurd hp (by simp [leafPathsF])
  | cons x rest ih =>
    rcases x with ⟨m, c⟩
    unfold leafPathsF at hp
    rcases List.mem_append.mp hp with h | h
    · exact ⟨(m, c), by simp, h⟩
    · rcases ih h with ⟨mc, hmc, hmem⟩
      exact ⟨mc, by simp [hmc], hmem⟩

theorem goodKidsB_cons {m : String} {c : GTree} {rest : List (String × GTree)}
    (h : goodKidsB ((m, c) :: rest) = true) :
    goodTokB m = true ∧ (∀ p ∈ rest, p.1 ≠ m) ∧ goodTreeB c = true ∧
      goodKidsB rest = true := by
  unfold goodKidsB at h
  simp only [Bool.and_eq_true, List.all_eq_true] at h
  refine ⟨h.1.1.1, ?_, h.1.2, h.2⟩
  intro p hp
  have := h.1.1.2 p hp
  simpa using this

theorem goodKids_mem {ch : List (String × GTree)} (hg : goodKidsB ch = true)
    {mc : String × GTree} (h : mc ∈ ch) :
    goodTokB mc.1 = true ∧ goodTreeB mc.2 = true := by
  induction ch with
  | nil => exact absurd h (by simp)
  | cons x rest ih =>
    rcases x with ⟨m, c⟩
    have hc := goodKidsB_cons hg
    rcases List.mem_cons.mp h with rfl | h2
    · exact ⟨hc.1, hc.2.2.1⟩
    · exact ih hc.2.2.2 h2

theorem goodTreeB_node {c : String} {n : List Nat} {ch : List (String × GTree)} :
    goodTreeB (.node c n ch) = goodKidsB ch := rfl

mutual

theorem leafPathsT_pf (t : GTree) (cur p q : List String) (hg : goodTreeB t = true)
    (hp : p ∈ leafPathsT t cur) (hq : q ∈ leafPathsT t cur) (hpq : p <+: q) :
    p = q := by
  match t with
  | .node c n [] =>
    unfold leafPathsT at hp hq
    simp only [List.mem_singleton] at hp hq
    rw [hp, hq]
  | .node c n (x :: xs) =>
    unfold leafPathsT at hp hq
    exact leafPathsF_pf (x :: xs) cur p q hg hp hq hpq

theorem leafPathsF_pf (ch : List (String × GTree)) (cur p q : List String)
    (hg : goodKidsB ch = true) (hp : p ∈ leafPathsF ch cur)
    (hq : q ∈ leafPathsF ch cur) (hpq : p <+: q) : p = q := by
  match ch with
  | [] => exact absurd hp (by simp [leafPathsF])
  | (m, c) :: rest =>
    have hgc := goodKidsB_cons hg
    unfold leafPathsF at hp hq
    rcases List.mem_append.mp hp with h1 | h1 <;> rcases List.mem_append.mp hq with h2 | h2
    · exact leafPathsT_pf c (cur ++ [m]) p q hgc.2.2.1 h1 h2 hpq
    · exfalso
      rcases leafPathsF_mem_split rest cur q h2 with ⟨⟨m', c'⟩, hmc, hmem⟩
      rcases leafPathsT_extends c (cur ++ [m]) p h1 with ⟨a, ha⟩
      rcases leafPathsT_extends c' (cur ++ [m']) q hmem with ⟨b, hb⟩
      rw [List.append_assoc] at ha hb
      rw [← ha, ← hb] at hpq
      have hmm : m = m' := by
        have h3 := (List.prefix_append_right_inj cur).mp hpq
        simp only [List.singleton_append] at h3
        exact (List.cons_prefix_cons.mp h3).1
      exact hgc.2.1 (m', c') hmc (by rw [hmm])
    · exfalso
      rcases leafPathsF_mem_split rest cur p h1 with ⟨⟨m', c'⟩, hmc, hmem⟩
      rcases leafPathsT_extends c' (cur ++ [m']) p hmem with ⟨a, ha⟩
      rcases leafPathsT_extends c (cur ++ [m]) q h2 with ⟨b, hb⟩
      rw [List.append_assoc] at ha hb
      rw [← ha, ← hb] at hpq
      have hmm : m' = m := by
        have h3 := (List.prefix_append_right_inj cur).mp hpq
        simp only [List.singleton_append] at h3
        exact (List.cons_prefix_cons.mp h3).1
      exact hgc.2.1 (m', c') hmc hmm
    · exact leafPathsF_pf rest cur p q hgc.2.2.2 h1 h2 hpq

end

theorem goodPathB_append {a b : List String} :
    goodPathB (a ++ b) = (goodPathB a && goodPathB b) := by
  unfold goodPathB
  exact List.all_append

mutual

theorem leafPathsT_good (t : GTree) (cur p : List String) (hg : goodTreeB t = true)
    (hcur : goodPathB cur = true) (hp : p ∈ leafPathsT t cur) :
    goodPathB p = true := by
  match t with
  | .node c n [] =>
    unfold leafPathsT at hp
    simp only [List.mem_singleton] at hp
    exact hp ▸ hcur
  | .node c n (x :: xs) =>
    unfold leafPathsT at hp
    exact leafPathsF_good (x :: xs) cur p hg hcur hp

theorem leafPathsF_good (ch : List (String × GTree)) (cur p : List String)
    (hg : goodKidsB ch = true) (hcur : goodPathB cur = true)
    (hp : p ∈ leafPathsF ch cur) : goodPathB p = true := by
  match ch with
  | [] => exact absurd hp (by simp [leafPathsF])
  | (m, c) :: rest =>
    have hgc := goodKidsB_cons hg
    unfold leafPathsF at hp
    rcases List.mem_append.mp hp with h | h
    · have hcur' : goodPathB (cur ++ [m]) = true := by
        rw [goodPathB_append]
        simp only [Bool.and_eq_true]
        exact ⟨hcur, by simp [goodPathB, hgc.1]⟩
      exact leafPathsT_good c (cur ++ [m]) p hgc.2.2.1 hcur' h
    · exact leafPathsF_good rest cur p hgc.2.2.2 hcur h

end

/-! ### Depth-trim bound -/

mutual

theorem trimNode_leaf_len (maxD : Nat) (t : GTree) (d : Nat) (cur p : List String)
    (_hd : d ≤ maxD) (hp : p ∈ leafPathsT (trimNodeAt maxD t d) cur) :
    p.length ≤ cur.length + (maxD - d) := by
  match t with
  | .node c n ch =>
    unfold trimNodeAt at hp
    by_cases hcut : maxD ≤ d
    · rw [if_pos hcut] at hp
      unfold leafPathsT at hp
      simp only [List.mem_singleton] at hp
      subst hp
      omega
    · rw [if_neg hcut] at hp
      match ch with
      | [] =>
        unfold trimKids at hp
        unfold leafPathsT at hp
        simp only [List.mem_singleton] at hp
        subst hp
        omega
      | x :: xs =>
        have hlt : d < maxD := Nat.lt_of_not_le hcut
        have hkid := trimKids_leaf_len maxD (x :: xs) d cur p hlt ?_
        · exact hkid
        · rcases x with ⟨m, c⟩
          unfold trimKids at hp ⊢
          unfold leafPathsT at hp
          exact hp

theorem trimKids_leaf_len (maxD : Nat) (ch : List (String × GTree)) (d : Nat)
    (cur p : List String) (hd : d < maxD)
    (hp : p ∈ leafPathsF (trimKids maxD ch d) cur) :
    p.length ≤ cur.length + (maxD - d) := by
  match ch with
  | [] =>
    unfold trimKids at hp
    exact absurd hp (by simp [leafPathsF])
  | (m, c) :: rest =>
    unfold trimKids at hp
    unfold leafPathsF at hp
    rcases List.mem_append.mp hp with h | h
    · have := trimNode_leaf_len maxD c (d + 1) (cur ++ [m]) p hd h
      simp only [List.length_append, List.length_singleton] at this
      omega
    · exact trimKids_leaf_len maxD rest d cur p hd h

end

/-! ### PrefixTree semantics: marked paths, insertion, leaf-markedness -/

theorem leafMarkedB_kids {f : Bool} {ch : List (String × PNode)}
    (h : leafMarkedB (.mk f ch) = true) : leafMarkedKB ch = true := by
  cases ch with
  | nil => rfl
  | cons x xs => exact h

theorem mem_ptPathsK_cons {ch : List (String × PNode)} {q : List String}
    (h : q ∈ ptPathsK ch) : ∃ m r, q = m :: r := by
  induction ch with
  | nil => exact absurd h (by simp [ptPathsK])
  | cons x rest ih =>
    rcases x with ⟨m, c⟩
    unfold ptPathsK at h
    rcases List.mem_append.mp h with h | h
    · rcases List.mem_map.mp h with ⟨r, _, hr⟩
      exact ⟨m, r, hr.symm⟩
    · exact ih h

theorem mem_ptPaths_node {f : Bool} {ch : List (String × PNode)} {q : List String} :
    q ∈ ptPaths (.mk f ch) ↔ (f = true ∧ q = []) ∨ q ∈ ptPathsK ch := by
  unfold ptPaths
  cases f <;> simp

theorem mem_ptPathsK_of_mem_node {f : Bool} {ch : List (String × PNode)}
    {q : List String} (hq : q ∈ ptPaths (.mk f ch)) (hne : q ≠ []) :
    q ∈ ptPathsK ch := by
  rcases mem_ptPaths_node.mp hq with ⟨_, rfl⟩ | h
  · exact absurd rfl hne
  · exact h

theorem mem_ptPathsK_updAssoc (m : String) (g : PNode → PNode) (dflt : PNode)
    (rest : List String)
    (hg : ∀ c p, p ∈ ptPaths (g c) ↔ p ∈ ptPaths c ∨ p = rest)
    (hd : ∀ p, p ∈ ptPaths dflt ↔ p = rest) :
    ∀ (ch : List (String × PNode)) (p : List String),
      p ∈ ptPathsK (updAssoc m g dflt ch) ↔ p ∈ ptPathsK ch ∨ p = m :: rest := by
  intro ch
  induction ch with
  | nil =>
    intro p
    unfold updAssoc ptPathsK
    unfold ptPathsK
    simp only [List.append_nil, List.mem_map, List.not_mem_nil, false_or]
    constructor
    · rintro ⟨q, hq, rfl⟩
      rw [(hd q).mp hq]
    · rintro rfl
      exact ⟨rest, (hd rest).mpr rfl, rfl⟩
  | cons x cs ih =>
    intro p
    rcases x with ⟨m', c⟩
    unfold updAssoc
    by_cases hm : m' = m
    · rw [if_pos hm]
      unfold ptPathsK
      simp only [List.mem_append, List.mem_map]
      constructor
      · rintro (⟨q, hq, rfl⟩ | h)
        · rcases (hg c q).mp hq with h2 | rfl
          · exact Or.inl (Or.inl ⟨q, h2, rfl⟩)
          · exact Or.inr (by rw [hm])
        · exact Or.inl (Or.inr h)
      · rintro ((⟨q, hq, rfl⟩ | h) | rfl)
        · exact Or.inl ⟨q, (hg c q).mpr (Or.inl hq), rfl⟩
        · exact Or.inr h
        · exact Or.inl ⟨rest, (hg c rest).mpr (Or.inr rfl), by rw [hm]⟩
    · rw [if_neg hm]
      unfold ptPathsK
      simp only [List.mem_append]
      rw [ih p]
      exact or_assoc.symm

theorem mem_ptPaths_insert :
    ∀ (q : List String) (t : PNode) (p : List String),
      p ∈ ptPaths (insertPT t q) ↔ p ∈ ptPaths t ∨ p = q := by
  intro q
  induction q with
  | nil =>
    intro t p
    rcases t with ⟨f, ch⟩
    show p ∈ ptPaths (.mk true ch) ↔ _
    rw [mem_ptPaths_node, mem_ptPaths_node]
    cases f <;> simp <;> tauto
  | cons m rest ih =>
    intro t p
    rcases t with ⟨f, ch⟩
    show p ∈ ptPaths (.mk f (updAssoc m (fun c => insertPT c rest)
      (insertPT (.mk false []) rest) ch)) ↔ _
    rw [mem_ptPaths_node, mem_ptPaths_node]
    rw [mem_ptPathsK_updAssoc m _ _ rest (fun c p => ih c p)
      (fun p => by rw [ih (.mk false []) p]; simp [mem_ptPaths_node, ptPathsK])]
    tauto

theorem leafMarkedKB_updAssoc (m : String) (g : PNode → PNode) (dflt : PNode)
    (hg : ∀ c, leafMarkedB c = true → leafMarkedB (g c) = true)
    (hd : leafMarkedB dflt = true) :
    ∀ ch, leafMarkedKB ch = true → leafMarkedKB (updAssoc m g dflt ch) = true := by
  intro ch
  induction ch with
  | nil =>
    intro _
    unfold updAssoc leafMarkedKB
    unfold leafMarkedKB
    simp [hd]
  | cons x cs ih =>
    intro h
    rcases x with ⟨m', c⟩
    unfold leafMarkedKB at h
    simp only [Bool.and_eq_true] at h
    unfold updAssoc
    by_cases hm : m' = m
    · rw [if_pos hm]
      unfold leafMarkedKB
      simp [hg c h.1, h.2]
    · rw [if_neg hm]
      unfold leafMarkedKB
      simp [h.1, ih h.2]

theorem leafMarkedB_of_kids {f : Bool} {ch : List (String × PNode)} (hne : ch ≠ [])
    (h : leafMarkedKB ch = true) : leafMarkedB (.mk f ch) = true := by
  cases ch with
  | nil => exact absurd rfl hne
  | cons x xs => exact h

theorem updAssoc_ne_nil {α : Type} (m : String) (g : α → α) (dflt : α) :
    ∀ ch, updAssoc m g dflt ch ≠ [] := by
  intro ch
  cases ch with
  | nil => unfold updAssoc; simp
  | cons x cs =>
    rcases x with ⟨m', c⟩
    unfold updAssoc
    by_cases hm : m' = m
    · rw [if_pos hm]; simp
    · rw [if_neg hm]; simp

theorem leafMarked_chain_base : ∀ (rest : List String),
    leafMarkedB (insertPT (.mk false []) rest) = true := by
  intro rest
  induction rest with
  | nil => rfl
  | cons m r ih =>
    show leafMarkedB (.mk false (updAssoc m (fun c => insertPT c r)
      (insertPT (.mk false []) r) [])) = true
    unfold updAssoc
    show leafMarkedKB [(m, insertPT (.mk false []) r)] = true
    unfold leafMarkedKB
    unfold leafMarkedKB
    simp [ih]

theorem leafMarked_insert :
    ∀ (q : List String) (t : PNode), leafMarkedB t = true →
      leafMarkedB (insertPT t q) = true := by
  intro q
  induction q with
  | nil =>
    intro t h
    rcases t with ⟨f, ch⟩
    show leafMarkedB (.mk true ch) = true
    cases ch with
    | nil => rfl
    | cons x xs => exact h
  | cons m rest ih =>
    intro t h
    rcases t with ⟨f, ch⟩
    show leafMarkedB (.mk f (updAssoc m (fun c => insertPT c rest)
      (insertPT (.mk false []) rest) ch)) = true
    have hupd : leafMarkedKB (updAssoc m (fun c => insertPT c rest)
        (insertPT (.mk false []) rest) ch) = true := by
      apply leafMarkedKB_updAssoc m _ _ (fun c hc => ih c hc)
      · exact leafMarked_chain_base rest
      · exact leafMarkedB_kids h
    exact leafMarkedB_of_kids (updAssoc_ne_nil m _ _ ch) hupd

mutual

theorem exists_ptPath (t : PNode) (h : leafMarkedB t = true) :
    ∃ q, q ∈ ptPaths t := by
  match t with
  | .mk f [] =>
    refine ⟨[], ?_⟩
    rw [mem_ptPaths_node]
    exact Or.inl ⟨h, rfl⟩
  | .mk f (x :: xs) =>
    rcases exists_ptPathK (x :: xs) (by simp) h with ⟨q, hq⟩
    exact ⟨q, mem_ptPaths_node.mpr (Or.inr hq)⟩

theorem exists_ptPathK (ch : List (String × PNode)) (hne : ch ≠ [])
    (h : leafMarkedKB ch = true) : ∃ q, q ∈ ptPathsK ch := by
  match ch with
  | [] => exact absurd rfl hne
  | (m, c) :: rest =>
    unfold leafMarkedKB at h
    simp only [Bool.and_eq_true] at h
    rcases exists_ptPath c h.1 with ⟨q, hq⟩
    refine ⟨m :: q, ?_⟩
    unfold ptPathsK
    exact List.mem_append.mpr (Or.inl (List.mem_map.mpr ⟨q, hq, rfl⟩))

end

theorem mem_ptPaths_foldl :
    ∀ (vs : List String) (t : PNode) (p : List String),
      p ∈ ptPaths (vs.foldl (fun t v => insertPT t (parse_move_sequence_to_list v)) t)
        ↔ p ∈ ptPaths t ∨ ∃ v ∈ vs, p = parse_move_sequence_to_list v := by
  intro vs
  induction vs with
  | nil => intro t p; simp
  | cons v vs' ih =>
    intro t p
    rw [List.foldl_cons, ih, mem_ptPaths_insert]
    constructor
    · rintro ((h | rfl) | ⟨w, hw, rfl⟩)
      · exact Or.inl h
      · exact Or.inr ⟨v, by simp⟩
      · exact Or.inr ⟨w, by simp [hw]⟩
    · rintro (h | ⟨w, hw, rfl⟩)
      · exact Or.inl (Or.inl h)
      · rcases List.mem_cons.mp hw with rfl | hw'
        · exact Or.inl (Or.inr rfl)
        · exact Or.inr ⟨w, hw', rfl⟩

theorem mem_ptPaths_buildPT (vs : List String) (p : List String) :
    p ∈ ptPaths (buildPT vs) ↔ ∃ v ∈ vs, p = parse_move_sequence_to_list v := by
  unfold buildPT
  rw [mem_ptPaths_foldl]
  simp [ptPaths, ptPathsK]

theorem leafMarked_foldl :
    ∀ (vs : List String) (t : PNode), leafMarkedB t = true →
      leafMarkedB (vs.foldl (fun t v => insertPT t (parse_move_sequence_to_list v)) t)
        = true := by
  intro vs
  induction vs with
  | nil => intro t h; exact h
  | cons v vs' ih =>
    intro t h
    rw [List.foldl_cons]
    exact ih _ (leafMarked_insert _ t h)

theorem leafMarked_buildPT {vs : List String} (hne : vs ≠ []) :
    leafMarkedB (buildPT vs) = true := by
  cases vs with
  | nil => exact absurd rfl hne
  | cons v vs' =>
    unfold buildPT
    rw [List.foldl_cons]
    exact leafMarked_foldl vs' _ (leafMarked_chain_base _)

/-! ### Covering-set DFS lemmas -/

theorem canUse_spec {pfxMoves : List String} {R A : List String}
    (h : can_use_as_covering_point pfxMoves R A = true) :
    (∃ L ∈ A, strMatchesPfx L (format_move_list pfxMoves) = true) ∧
      (∀ L ∈ A, strMatchesPfx L (format_move_list pfxMoves) = true → L ∈ R) := by
  unfold can_use_as_covering_point at h
  set matching := A.filter (fun v => strMatchesPfx v (format_move_list pfxMoves)) with hm
  by_cases he : matching.isEmpty
  · rw [if_pos he] at h; exact absurd h (by simp)
  · rw [if_neg he] at h
    constructor
    · cases hmm : matching with
      | nil => rw [hmm] at he; exact absurd rfl he
      | cons x xs =>
        have hx : x ∈ matching := by rw [hmm]; simp
        rw [hm] at hx
        have := List.mem_filter.mp hx
        exact ⟨x, this.1, this.2⟩
    · intro L hL hmatch
      have hLm : L ∈ matching := by
        rw [hm]
        exact List.mem_filter.mpr ⟨hL, hmatch⟩
      have := List.all_eq_true.mp h L hLm
      simpa using this

mutual

theorem coverNode_shape (R A : List String) (t : PNode) (path e : List String)
    (he : e ∈ coverNode R A t path) : path <+: e := by
  match t with
  | .mk f [] =>
    unfold coverNode at he
    cases f with
    | false => simp at he
    | true =>
      simp at he
      exact he ▸ List.prefix_refl _
  | .mk f (x :: xs) =>
    unfold coverNode at he
    by_cases hc : (!A.isEmpty && can_use_as_covering_point path R A) = true
    · rw [if_pos hc] at he
      simp only [List.mem_singleton] at he
      exact he ▸ List.prefix_refl _
    · rw [if_neg hc] at he
      rcases coverKids_shape R A (x :: xs) path e he with ⟨m, r, rfl⟩
      exact ⟨m :: r, rfl⟩

theorem coverKids_shape (R A : List String) (ch : List (String × PNode))
    (path e : List String) (he : e ∈ coverKids R A ch path) :
    ∃ m r, e = path ++ m :: r := by
  match ch with
  | [] => exact absurd he (by simp [coverKids])
  | (m, c) :: rest =>
    unfold coverKids at he
    rcases List.mem_append.mp he with h | h
    · rcases coverNode_shape R A c (path ++ [m]) e h with ⟨r, hr⟩
      exact ⟨m, r, by rw [← hr, List.append_assoc]; rfl⟩
    · exact coverKids_shape R A rest path e h

end

mutual

theorem coverNode_sound (R A : List String) (t : PNode) (path e : List String)
    (hm : leafMarkedB t = true) (he : e ∈ coverNode R A t path) :
    (∃ q ∈ ptPaths t, e = path ++ q) ∨
      (can_use_as_covering_point e R A = true ∧ ∃ q ∈ ptPaths t, e <+: path ++ q) := by
  match t with
  | .mk f [] =>
    unfold coverNode at he
    cases f with
    | false => simp at he
    | true =>
      simp at he
      subst he
      refine Or.inl ⟨[], ?_, by simp⟩
      rw [mem_ptPaths_node]
      exact Or.inl ⟨rfl, rfl⟩
  | .mk f (x :: xs) =>
    unfold coverNode at he
    by_cases hc : (!A.isEmpty && can_use_as_covering_point path R A) = true
    · rw [if_pos hc] at he
      simp only [List.mem_singleton] at he
      subst he
      rcases exists_ptPath _ hm with ⟨q, hq⟩
      refine Or.inr ⟨?_, q, hq, List.prefix_append e q⟩
      have hc' : (!A.isEmpty) = true ∧ can_use_as_covering_point e R A = true := by
        simpa using hc
      exact hc'.2
    · rw [if_neg hc] at he
      rcases coverKids_sound R A (x :: xs) path e (leafMarkedB_kids hm) he with
        ⟨q, hq, heq⟩ | ⟨hcan, q, hq, hpre⟩
      · exact Or.inl ⟨q, mem_ptPaths_node.mpr (Or.inr hq), heq⟩
      · exact Or.inr ⟨hcan, q, mem_ptPaths_node.mpr (Or.inr hq), hpre⟩

theorem coverKids_sound (R A : List String) (ch : List (String × PNode))
    (path e : List String) (hm : leafMarkedKB ch = true)
    (he : e ∈ coverKids R A ch path) :
    (∃ q ∈ ptPathsK ch, e = path ++ q) ∨
      (can_use_as_covering_point e R A = true ∧ ∃ q ∈ ptPathsK ch, e <+: path ++ q) := by
  match ch with
  | [] => exact absurd he (by simp [coverKids])
  | (m, c) :: rest =>
    unfold leafMarkedKB at hm
    simp only [Bool.and_eq_true] at hm
    unfold coverKids at he
    rcases List.mem_append.mp he with h | h
    · rcases coverNode_sound R A c (path ++ [m]) e hm.1 h with
        ⟨q, hq, heq⟩ | ⟨hcan, q, hq, hpre⟩
      · refine Or.inl ⟨m :: q, ?_, ?_⟩
        · unfold ptPathsK
          exact List.mem_append.mpr (Or.inl (List.mem_map.mpr ⟨q, hq, rfl⟩))
        · rw [heq, List.append_assoc]; rfl
      · refine Or.inr ⟨hcan, m :: q, ?_, ?_⟩
        · unfold ptPathsK
          exact List.mem_append.mpr (Or.inl (List.mem_map.mpr ⟨q, hq, rfl⟩))
        · rw [show path ++ m :: q = (path ++ [m]) ++ q by rw [List.append_assoc]; rfl]
          exact hpre
    · rcases coverKids_sound R A rest path e hm.2 h with
        ⟨q, hq, heq⟩ | ⟨hcan, q, hq, hpre⟩
      · exact Or.inl ⟨q, by unfold ptPathsK; exact List.mem_append.mpr (Or.inr hq), heq⟩
      · exact Or.inr ⟨hcan, q, by unfold ptPathsK; exact List.mem_append.mpr (Or.inr hq), hpre⟩

end

mutual

theorem coverNode_complete (R A : List String) (t : PNode) (path q : List String)
    (hm : leafMarkedB t = true)
    (hpf : ∀ a ∈ ptPaths t, ∀ b ∈ ptPaths t, a <+: b → a = b)
    (hq : q ∈ ptPaths t) :
    ∃ e ∈ coverNode R A t path, e <+: path ++ q := by
  match t with
  | .mk f [] =>
    rcases mem_ptPaths_node.mp hq with ⟨hf, rfl⟩ | hk
    · refine ⟨path, ?_, by simp⟩
      unfold coverNode
      rw [hf]
      simp
    · exact absurd hk (by simp [ptPathsK])
  | .mk f (x :: xs) =>
    by_cases hc : (!A.isEmpty && can_use_as_covering_point path R A) = true
    · refine ⟨path, ?_, List.prefix_append path q⟩
      unfold coverNode
      rw [if_pos hc]
      simp
    · have hknil : q ∈ ptPathsK (x :: xs) := by
        rcases mem_ptPaths_node.mp hq with ⟨hf, rfl⟩ | hk
        · exfalso
          rcases exists_ptPathK (x :: xs) (by simp) (leafMarkedB_kids hm) with ⟨q', hq'⟩
          have hq'' : q' ∈ ptPaths (PNode.mk f (x :: xs)) := mem_ptPaths_node.mpr (Or.inr hq')
          have := hpf [] hq q' hq'' List.nil_prefix
          rcases mem_ptPathsK_cons hq' with ⟨m, r, rfl⟩
          exact absurd this.symm (by simp)
        · exact hk
      rcases coverKids_complete R A (x :: xs) path q (leafMarkedB_kids hm)
        (fun a ha b hb => hpf a (mem_ptPaths_node.mpr (Or.inr ha))
          b (mem_ptPaths_node.mpr (Or.inr hb))) hknil with ⟨e, he, hpre⟩
      refine ⟨e, ?_, hpre⟩
      unfold coverNode
      rw [if_neg hc]
      exact he

theorem coverKids_complete (R A : List String) (ch : List (String × PNode))
    (path q : List String) (hm : leafMarkedKB ch = true)
    (hpf : ∀ a ∈ ptPathsK ch, ∀ b ∈ ptPathsK ch, a <+: b → a = b)
    (hq : q ∈ ptPathsK ch) :
    ∃ e ∈ coverKids R A ch path, e <+: path ++ q := by
  match ch with
  | [] => exact absurd hq (by simp [ptPathsK])
  | (m, c) :: rest =>
    unfold leafMarkedKB at hm
    simp only [Bool.and_eq_true] at hm
    unfold ptPathsK at hq
    rcases List.mem_append.mp hq with h | h
    · rcases List.mem_map.mp h with ⟨q0, hq0, rfl⟩
      have hpfc : ∀ a ∈ ptPaths c, ∀ b ∈ ptPaths c, a <+: b → a = b := by
        intro a ha b hb hab
        have hma : m :: a ∈ ptPathsK ((m, c) :: rest) := by
          unfold ptPathsK
          exact List.mem_append.mpr (Or.inl (List.mem_map.mpr ⟨a, ha, rfl⟩))
        have hmb : m :: b ∈ ptPathsK ((m, c) :: rest) := by
          unfold ptPathsK
          exact List.mem_append.mpr (Or.inl (List.mem_map.mpr ⟨b, hb, rfl⟩))
        have hcons := hpf (m :: a) hma (m :: b) hmb
          (List.cons_prefix_cons.mpr ⟨rfl, hab⟩)
        injection hcons with h1 h2
      rcases coverNode_complete R A c (path ++ [m]) q0 hm.1 hpfc hq0 with ⟨e, he, hpre⟩
      refine ⟨e, ?_, ?_⟩
      · unfold coverKids
        exact List.mem_append.mpr (Or.inl he)
      · rw [show path ++ m :: q0 = (path ++ [m]) ++ q0 by rw [List.append_assoc]; rfl]
        exact hpre
    · have hpfr : ∀ a ∈ ptPathsK rest, ∀ b ∈ ptPathsK rest, a <+: b → a = b := by
        intro a ha b hb hab
        exact hpf a (by unfold ptPathsK; exact List.mem_append.mpr (Or.inr ha))
          b (by unfold ptPathsK; exact List.mem_append.mpr (Or.inr hb)) hab
      rcases coverKids_complete R A rest path q hm.2 hpfr h with ⟨e, he, hpre⟩
      refine ⟨e, ?_, hpre⟩
      unfold coverKids
      exact List.mem_append.mpr (Or.inr he)

end

/-! ### Optimizer-level lemmas -/

theorem isEmpty_false_of_ne_nil {α : Type} {l : List α} (h : l ≠ []) :
    l.isEmpty = false := by
  cases l with
  | nil => exact absurd rfl h
  | cons a t => rfl

theorem mem_extract {g : PGame} {L : String} :
    L ∈ extract_all_variation_paths g ↔
      ∃ p ∈ leafPathsT g.root [], L = format_move_list p := by
  unfold extract_all_variation_paths
  rw [List.mem_dedup, List.mem_map]
  constructor
  · rintro ⟨p, hp, rfl⟩
    exact ⟨p, hp, rfl⟩
  · rintro ⟨p, hp, rfl⟩
    exact ⟨p, hp, rfl⟩

theorem contains_iff_mem {l : List String} {a : String} :
    l.contains a = true ↔ a ∈ l := by
  induction l with
  | nil => simp
  | cons x xs ih => simp

theorem leafMarkedB_children {t : PNode} (h : leafMarkedB t = true) :
    leafMarkedKB t.children = true := by
  rcases t with ⟨f, ch⟩
  exact leafMarkedB_kids h

theorem mem_ptPaths_of_K {t : PNode} {q : List String} (h : q ∈ ptPathsK t.children) :
    q ∈ ptPaths t := by
  rcases t with ⟨f, ch⟩
  exact mem_ptPaths_node.mpr (Or.inr h)

theorem mem_K_of_mem {t : PNode} {q : List String} (h : q ∈ ptPaths t) (hne : q ≠ []) :
    q ∈ ptPathsK t.children := by
  rcases t with ⟨f, ch⟩
  exact mem_ptPathsK_of_mem_node h hne

theorem goodPath_of_pre {p q : List String} (h : p <+: q)
    (hq : goodPathB q = true) : goodPathB p = true := by
  unfold goodPathB at hq ⊢
  rw [List.all_eq_true] at hq ⊢
  exact fun x hx => hq x (h.subset hx)

theorem mem_optimize {vars : List String} {g : PGame} {e : String} (hne : vars ≠ []) :
    e ∈ optimize_variation_list vars (some g) ↔
      ∃ mv ∈ coverKids vars (extract_all_variation_paths g) (buildPT vars).children [],
        e = format_move_list mv := by
  unfold optimize_variation_list
  rw [isEmpty_false_of_ne_nil hne]
  show e ∈ (pySort pyMovesLe (find_minimal_covering_set_validated (buildPT vars) vars
    (extract_all_variation_paths g))).map format_move_list ↔ _
  rw [List.mem_map]
  unfold find_minimal_covering_set_validated
  constructor
  · rintro ⟨mv, hmv, rfl⟩
    exact ⟨mv, (mem_pySort _ mv _).mp hmv, rfl⟩
  · rintro ⟨mv, hmv, rfl⟩
    exact ⟨mv, (mem_pySort _ mv _).mpr hmv, rfl⟩

theorem vars_member_shape {vars : List String} {g : PGame}
    (hgood : goodTreeB g.root = true)
    (hsub : ∀ v ∈ vars, v ∈ extract_all_variation_paths g)
    {v : String} (hv : v ∈ vars) :
    ∃ p ∈ leafPathsT g.root [], v = format_move_list p ∧ goodPathB p = true ∧
      parse_move_sequence_to_list v = p := by
  rcases mem_extract.mp (hsub v hv) with ⟨p, hp, rfl⟩
  have hpg : goodPathB p = true := leafPathsT_good g.root [] p hgood rfl hp
  exact ⟨p, hp, rfl, hpg, parse_format hpg⟩

theorem ptPathsK_build_shape {vars : List String} {g : PGame}
    (hgood : goodTreeB g.root = true)
    (hsub : ∀ v ∈ vars, v ∈ extract_all_variation_paths g)
    {q : List String} (hq : q ∈ ptPathsK (buildPT vars).children) :
    q ∈ leafPathsT g.root [] ∧ goodPathB q = true ∧
      format_move_list q ∈ vars ∧ q ≠ [] := by
  have hqp : q ∈ ptPaths (buildPT vars) := mem_ptPaths_of_K hq
  rcases (mem_ptPaths_buildPT vars q).mp hqp with ⟨v, hv, rfl⟩
  rcases vars_member_shape hgood hsub hv with ⟨p, hp, rfl, hpg, hparse⟩
  rw [hparse]
  rcases mem_ptPathsK_cons hq with ⟨m, r, hcons⟩
  rw [hparse] at hcons
  exact ⟨hp, hpg, hv, by rw [hcons]; simp⟩

theorem optimize_sound_aux {vars : List String} {g : PGame}
    (hgood : goodTreeB g.root = true)
    (hsub : ∀ v ∈ vars, v ∈ extract_all_variation_paths g) :
    ∀ e ∈ optimize_variation_list vars (some g),
      ∀ L ∈ extract_all_variation_paths g, strMatchesPfx L e = true → L ∈ vars := by
  intro e he L hL hmatch
  have hne : vars ≠ [] := by
    rintro rfl
    exact absurd he (by simp [optimize_variation_list])
  rcases (mem_optimize hne).mp he with ⟨mv, hmv, rfl⟩
  have hmk : leafMarkedKB (buildPT vars).children = true :=
    leafMarkedB_children (leafMarked_buildPT hne)
  rcases coverKids_sound vars (extract_all_variation_paths g)
      (buildPT vars).children [] mv hmk hmv with ⟨q, hq, heq⟩ | ⟨hcan, _⟩
  · rw [List.nil_append] at heq
    subst heq
    rcases ptPathsK_build_shape hgood hsub hq with ⟨hleaf, hqg, hqv, hqne⟩
    rcases mem_extract.mp hL with ⟨l, hl, rfl⟩
    have hlg : goodPathB l = true := leafPathsT_good g.root [] l hgood rfl hl
    have hpre : mv <+: l := (strMatches_fmt_iff hqg hlg hqne).mp hmatch
    have hql : mv = l := leafPathsT_pf g.root [] mv l hgood hleaf hl hpre
    rw [← hql]
    exact hqv
  · exact (canUse_spec hcan).2 L hL hmatch

theorem optimize_conservative_aux {vars : List String} {g : PGame}
    (hcanon : ∀ v ∈ vars, ∃ p, goodPathB p = true ∧ v = format_move_list p) :
    ∀ e ∈ optimize_variation_list vars (some g),
      e ∈ vars ∨ ∃ L ∈ extract_all_variation_paths g, strMatchesPfx L e = true := by
  intro e he
  have hne : vars ≠ [] := by
    rintro rfl
    exact absurd he (by simp [optimize_variation_list])
  rcases (mem_optimize hne).mp he with ⟨mv, hmv, rfl⟩
  have hmk : leafMarkedKB (buildPT vars).children = true :=
    leafMarkedB_children (leafMarked_buildPT hne)
  rcases coverKids_sound vars (extract_all_variation_paths g)
      (buildPT vars).children [] mv hmk hmv with ⟨q, hq, heq⟩ | ⟨hcan, _⟩
  · rw [List.nil_append] at heq
    subst heq
    rcases (mem_ptPaths_buildPT vars mv).mp (mem_ptPaths_of_K hq) with ⟨v, hv, rfl⟩
    rcases hcanon v hv with ⟨p, hpg, rfl⟩
    rw [parse_format hpg]
    exact Or.inl hv
  · exact Or.inr (canUse_spec hcan).1

theorem optimize_complete_aux {vars : List String} {g : PGame}
    (hgood : goodTreeB g.root = true)
    (hsub : ∀ v ∈ vars, v ∈ extract_all_variation_paths g)
    (hnn : ∀ v ∈ vars, v ≠ "") :
    ∀ v ∈ vars, ∃ e ∈ optimize_variation_list vars (some g),
      strMatchesPfx v e = true := by
  intro v hv
  have hne : vars ≠ [] := by rintro rfl; exact absurd hv (by simp)
  rcases vars_member_shape hgood hsub hv with ⟨p, hp, rfl, hpg, hparse⟩
  have hpne : p ≠ [] := by
    rintro rfl
    exact absurd rfl (hnn _ hv)
  have hmem : p ∈ ptPaths (buildPT vars) :=
    (mem_ptPaths_buildPT vars p).mpr ⟨format_move_list p, hv, hparse.symm⟩
  have hK : p ∈ ptPathsK (buildPT vars).children := mem_K_of_mem hmem hpne
  have hpf : ∀ a ∈ ptPathsK (buildPT vars).children,
      ∀ b ∈ ptPathsK (buildPT vars).children, a <+: b → a = b := by
    intro a ha b hb hab
    rcases ptPathsK_build_shape hgood hsub ha with ⟨hal, _, _, _⟩
    rcases ptPathsK_build_shape hgood hsub hb with ⟨hbl, _, _, _⟩
    exact leafPathsT_pf g.root [] a b hgood hal hbl hab
  have hmk : leafMarkedKB (buildPT vars).children = true :=
    leafMarkedB_children (leafMarked_buildPT hne)
  rcases coverKids_complete vars (extract_all_variation_paths g)
      (buildPT vars).children [] p hmk hpf hK with ⟨mv, hmv, hpre⟩
  rw [List.nil_append] at hpre
  refine ⟨format_move_list mv, (mem_optimize hne).mpr ⟨mv, hmv, rfl⟩, ?_⟩
  have hmvne : mv ≠ [] := by
    rcases coverKids_shape _ _ _ _ _ hmv with ⟨m, r, hmr⟩
    rw [hmr]
    simp
  have hmvg : goodPathB mv = true := goodPath_of_pre hpre hpg
  exact (strMatches_fmt_iff hmvg hpg hmvne).mpr hpre

/-! ### Filter-loop and splice lemmas -/

theorem matches_iff {movePath pm : List String} :
    matches_variation_pattern movePath pm = true ↔ pm <+: movePath := by
  unfold matches_variation_pattern
  exact List.isPrefixOf_iff_prefix

theorem addGuardSkips_iff {d : Option Int} {len : Nat} :
    addGuardSkips d len = true ↔ ∃ dv, d = some dv ∧ dv ≠ 0 ∧ (len : Int) > dv := by
  cases d with
  | none => simp [addGuardSkips]
  | some dv => simp [addGuardSkips]

theorem shouldAddLoop_cons_none {ps : String → Option (List String)}
    {movePath : List String} {f : VariationFilter} {rest : List VariationFilter}
    (hps : ps f.moves = none) :
    shouldAddLoop ps movePath (f :: rest) = shouldAddLoop ps movePath rest := by
  conv_lhs => unfold shouldAddLoop
  rw [hps]

theorem shouldAddLoop_cons_some {ps : String → Option (List String)}
    {movePath : List String} {f : VariationFilter} {rest : List VariationFilter}
    {pm : List String} (hps : ps f.moves = some pm) :
    shouldAddLoop ps movePath (f :: rest) =
      (if matches_variation_pattern movePath pm then
        (if addGuardSkips f.depth movePath.length then shouldAddLoop ps movePath rest
          else true)
      else shouldAddLoop ps movePath rest) := by
  conv_lhs => unfold shouldAddLoop
  rw [hps]

theorem shouldRemoveLoop_cons_none {ps : String → Option (List String)}
    {movePath : List String} {f : VariationFilter} {rest : List VariationFilter}
    (hps : ps f.moves = none) :
    shouldRemoveLoop ps movePath (f :: rest) = shouldRemoveLoop ps movePath rest := by
  conv_lhs => unfold shouldRemoveLoop
  rw [hps]

theorem shouldRemoveLoop_cons_some {ps : String → Option (List String)}
    {movePath : List String} {f : VariationFilter} {rest : List VariationFilter}
    {pm : List String} (hps : ps f.moves = some pm) :
    shouldRemoveLoop ps movePath (f :: rest) =
      (if matches_variation_pattern movePath pm then
        (if removeGuardSkips f.depth movePath.length then shouldRemoveLoop ps movePath rest
          else true)
      else shouldRemoveLoop ps movePath rest) := by
  conv_lhs => unfold shouldRemoveLoop
  rw [hps]

theorem shouldAddLoop_iff (ps : String → Option (List String)) (movePath : List String) :
    ∀ afs : List VariationFilter,
      shouldAddLoop ps movePath afs = true ↔
        ∃ f ∈ afs, ∃ pm, ps f.moves = some pm ∧ pm <+: movePath ∧
          (∀ dv, f.depth = some dv → dv = 0 ∨ (movePath.length : Int) ≤ dv) := by
  intro afs
  induction afs with
  | nil => simp [shouldAddLoop]
  | cons f rest ih =>
    constructor
    · intro h
      cases hps : ps f.moves with
      | none =>
        rw [shouldAddLoop_cons_none hps] at h
        rcases (ih.mp h) with ⟨f', hf', hrest⟩
        exact ⟨f', by simp [hf'], hrest⟩
      | some pm =>
        rw [shouldAddLoop_cons_some hps] at h
        by_cases hmt : matches_variation_pattern movePath pm = true
        · rw [if_pos hmt] at h
          by_cases hgd : addGuardSkips f.depth movePath.length = true
          · rw [if_pos hgd] at h
            rcases (ih.mp h) with ⟨f', hf', hrest⟩
            exact ⟨f', by simp [hf'], hrest⟩
          · refine ⟨f, by simp, pm, hps, matches_iff.mp hmt, ?_⟩
            intro dv hdv
            rw [addGuardSkips_iff] at hgd
            by_cases h0 : dv = 0
            · exact Or.inl h0
            · right
              by_contra hlen
              exact hgd ⟨dv, hdv, h0, by omega⟩
        · rw [if_neg hmt] at h
          rcases (ih.mp h) with ⟨f', hf', hrest⟩
          exact ⟨f', by simp [hf'], hrest⟩
    · rintro ⟨f', hf', pm, hpm, hpre, hguard⟩
      rcases List.mem_cons.mp hf' with rfl | hf2
      · rw [shouldAddLoop_cons_some hpm, if_pos (matches_iff.mpr hpre)]
        by_cases hgd : addGuardSkips f'.depth movePath.length = true
        · exfalso
          rcases addGuardSkips_iff.mp hgd with ⟨dv, hdv, h0, hlt⟩
          rcases hguard dv hdv with h | h
          · exact h0 h
          · omega
        · rw [if_neg hgd]
      · cases hps : ps f.moves with
        | none =>
          rw [shouldAddLoop_cons_none hps]
          exact ih.mpr ⟨f', hf2, pm, hpm, hpre, hguard⟩
        | some pm0 =>
          rw [shouldAddLoop_cons_some hps]
          by_cases hmt : matches_variation_pattern movePath pm0 = true
          · rw [if_pos hmt]
            by_cases hgd : addGuardSkips f.depth movePath.length = true
            · rw [if_pos hgd]
              exact ih.mpr ⟨f', hf2, pm, hpm, hpre, hguard⟩
            · rw [if_neg hgd]
          · rw [if_neg hmt]
            exact ih.mpr ⟨f', hf2, pm, hpm, hpre, hguard⟩

theorem hasPathKB_updAssoc_self (m : String) (rest : List String)
    (g : GTree → GTree) (dflt : GTree)
    (hg : ∀ u, hasPathB (g u) rest = true) (hd : hasPathB dflt rest = true) :
    ∀ ch, hasPathKB (updAssoc m g dflt ch) m rest = true := by
  intro ch
  induction ch with
  | nil =>
    unfold updAssoc
    unfold hasPathKB
    rw [if_pos rfl]
    exact hd
  | cons x cs ih =>
    rcases x with ⟨m', c⟩
    unfold updAssoc
    by_cases hm : m' = m
    · rw [if_pos hm]
      unfold hasPathKB
      rw [if_pos hm]
      exact hg c
    · rw [if_neg hm]
      unfold hasPathKB
      rw [if_neg hm]
      exact ih

theorem spliceTree_nil (t : GTree) : spliceTree t [] = t := by
  rcases t with ⟨c, n, ch⟩
  rfl

theorem hasPathB_nil (t : GTree) : hasPathB t [] = true := by
  rcases t with ⟨c, n, ch⟩
  rfl

theorem hasPathB_spliceTree_self :
    ∀ (mv : List String) (t : GTree), hasPathB (spliceTree t mv) mv = true := by
  intro mv
  induction mv with
  | nil => intro t; rw [spliceTree_nil]; exact hasPathB_nil t
  | cons m rest ih =>
    intro t
    rcases t with ⟨c, n, ch⟩
    show hasPathKB (updAssoc m (fun u => spliceTree u rest)
      (spliceTree (.node "" [] []) rest) ch) m rest = true
    exact hasPathKB_updAssoc_self m rest _ _ (fun u => ih u) (ih _) ch

theorem hasPathKB_updAssoc_mono (m : String) (g : GTree → GTree) (dflt : GTree)
    (hg : ∀ u p, hasPathB u p = true → hasPathB (g u) p = true) :
    ∀ ch x prest, hasPathKB ch x prest = true →
      hasPathKB (updAssoc m g dflt ch) x prest = true := by
  intro ch
  induction ch with
  | nil => intro x prest h; exact absurd h (by simp [hasPathKB])
  | cons y cs ih =>
    intro x prest h
    rcases y with ⟨m', c⟩
    unfold hasPathKB at h
    unfold updAssoc
    by_cases hm : m' = m
    · rw [if_pos hm]
      unfold hasPathKB
      by_cases hx : m' = x
      · rw [if_pos hx] at h ⊢
        exact hg c prest h
      · rw [if_neg hx] at h ⊢
        exact h
    · rw [if_neg hm]
      unfold hasPathKB
      by_cases hx : m' = x
      · rw [if_pos hx] at h ⊢
        exact h
      · rw [if_neg hx] at h ⊢
        exact ih x prest h

theorem hasPath_splice_mono :
    ∀ (mv : List String) (t : GTree) (p : List String),
      hasPathB t p = true → hasPathB (spliceTree t mv) p = true := by
  intro mv
  induction mv with
  | nil => intro t p h; rw [spliceTree_nil]; exact h
  | cons m mrest ih =>
    intro t p h
    rcases t with ⟨c, n, ch⟩
    cases p with
    | nil => exact hasPathB_nil _
    | cons x prest =>
      show hasPathKB (updAssoc m (fun u => spliceTree u mrest)
        (spliceTree (.node "" [] []) mrest) ch) x prest = true
      exact hasPathKB_updAssoc_mono m _ _ (fun u q hq => ih u q hq) ch x prest h

theorem spliceAll_mono (ps : String → Option (List String)) :
    ∀ (l : List VariationFilter) (t : GTree) (p : List String),
      hasPathB t p = true → hasPathB (spliceAll ps t l) p = true := by
  intro l
  induction l with
  | nil => intro t p h; exact h
  | cons f rest ih =>
    intro t p h
    unfold spliceAll
    cases hps : ps f.moves with
    | none => exact ih t p h
    | some mv => exact ih _ p (hasPath_splice_mono mv t p h)

theorem spliceAll_has (ps : String → Option (List String)) :
    ∀ (l1 : List VariationFilter) (f : VariationFilter) (l2 : List VariationFilter)
      (t : GTree) (pm : List String), ps f.moves = some pm →
      hasPathB (spliceAll ps t (l1 ++ f :: l2)) pm = true := by
  intro l1
  induction l1 with
  | nil =>
    intro f l2 t pm hps
    show hasPathB (spliceAll ps t (f :: l2)) pm = true
    unfold spliceAll
    rw [hps]
    exact spliceAll_mono ps l2 _ pm (hasPathB_spliceTree_self pm t)
  | cons g0 l1' ih =>
    intro f l2 t pm hps
    show hasPathB (spliceAll ps t (g0 :: (l1' ++ f :: l2))) pm = true
    unfold spliceAll
    cases hg0 : ps g0.moves with
    | none => exact ih f l2 t pm hps
    | some mv => exact ih f l2 _ pm hps

/-! ### Local recovery of unparsable filters -/

theorem shouldRemoveLoop_skip_bad (ps : String → Option (List String))
    (movePath : List String) {bad : VariationFilter} (hbad : ps bad.moves = none) :
    ∀ l1 l2, shouldRemoveLoop ps movePath (l1 ++ bad :: l2)
      = shouldRemoveLoop ps movePath (l1 ++ l2) := by
  intro l1
  induction l1 with
  | nil => intro l2; exact shouldRemoveLoop_cons_none hbad
  | cons f l1' ih =>
    intro l2
    show shouldRemoveLoop ps movePath (f :: (l1' ++ bad :: l2))
      = shouldRemoveLoop ps movePath (f :: (l1' ++ l2))
    cases hps : ps f.moves with
    | none => rw [shouldRemoveLoop_cons_none hps, shouldRemoveLoop_cons_none hps, ih]
    | some pm => rw [shouldRemoveLoop_cons_some hps, shouldRemoveLoop_cons_some hps, ih]

theorem shouldAddLoop_skip_bad (ps : String → Option (List String))
    (movePath : List String) {bad : VariationFilter} (hbad : ps bad.moves = none) :
    ∀ l1 l2, shouldAddLoop ps movePath (l1 ++ bad :: l2)
      = shouldAddLoop ps movePath (l1 ++ l2) := by
  intro l1
  induction l1 with
  | nil => intro l2; exact shouldAddLoop_cons_none hbad
  | cons f l1' ih =>
    intro l2
    show shouldAddLoop ps movePath (f :: (l1' ++ bad :: l2))
      = shouldAddLoop ps movePath (f :: (l1' ++ l2))
    cases hps : ps f.moves with
    | none => rw [shouldAddLoop_cons_none hps, shouldAddLoop_cons_none hps, ih]
    | some pm => rw [shouldAddLoop_cons_some hps, shouldAddLoop_cons_some hps, ih]

mutual

theorem filterKids_congr (ps : String → Option (List String))
    (rem add rem' add' : Option (List VariationFilter))
    (hss : ∀ mp, should_skip_variation ps mp rem add
      = should_skip_variation ps mp rem' add')
    (ch : List (String × GTree)) (cur : List String) :
    filterKids ps rem add ch cur = filterKids ps rem' add' ch cur := by
  match ch with
  | [] => rfl
  | (m, t) :: rest =>
    show (if should_skip_variation ps (cur ++ [m]) rem add then
        filterKids ps rem add rest cur
      else (m, filterNode ps rem add t (cur ++ [m])) :: filterKids ps rem add rest cur)
      = (if should_skip_variation ps (cur ++ [m]) rem' add' then
        filterKids ps rem' add' rest cur
      else (m, filterNode ps rem' add' t (cur ++ [m])) :: filterKids ps rem' add' rest cur)
    rw [hss (cur ++ [m])]
    by_cases hsk : should_skip_variation ps (cur ++ [m]) rem' add' = true
    · rw [if_pos hsk, if_pos hsk]
      exact filterKids_congr ps rem add rem' add' hss rest cur
    · rw [if_neg hsk, if_neg hsk]
      rw [filterNode_congr ps rem add rem' add' hss t (cur ++ [m])]
      rw [filterKids_congr ps rem add rem' add' hss rest cur]

theorem filterNode_congr (ps : String → Option (List String))
    (rem add rem' add' : Option (List VariationFilter))
    (hss : ∀ mp, should_skip_variation ps mp rem add
      = should_skip_variation ps mp rem' add')
    (t : GTree) (cur : List String) :
    filterNode ps rem add t cur = filterNode ps rem' add' t cur := by
  match t with
  | .node c n ch =>
    show GTree.node c n (filterKids ps rem add ch cur) = _
    rw [filterKids_congr ps rem add rem' add' hss ch cur]
    rfl

end

theorem spliceAll_cons_none {ps : String → Option (List String)} {t : GTree}
    {f : VariationFilter} {rest : List VariationFilter} (hps : ps f.moves = none) :
    spliceAll ps t (f :: rest) = spliceAll ps t rest := by
  show (match ps f.moves with
    | none => spliceAll ps t rest
    | some moves => spliceAll ps (spliceTree t moves) rest) = _
  rw [hps]

theorem spliceAll_cons_some {ps : String → Option (List String)} {t : GTree}
    {f : VariationFilter} {rest : List VariationFilter} {mv : List String}
    (hps : ps f.moves = some mv) :
    spliceAll ps t (f :: rest) = spliceAll ps (spliceTree t mv) rest := by
  show (match ps f.moves with
    | none => spliceAll ps t rest
    | some moves => spliceAll ps (spliceTree t moves) rest) = _
  rw [hps]

theorem spliceAll_skip_bad (ps : String → Option (List String))
    {bad : VariationFilter} (hbad : ps bad.moves = none) :
    ∀ (l1 l2 : List VariationFilter) (t : GTree),
      spliceAll ps t (l1 ++ bad :: l2) = spliceAll ps t (l1 ++ l2) := by
  intro l1
  induction l1 with
  | nil => intro l2 t; exact spliceAll_cons_none hbad
  | cons f l1' ih =>
    intro l2 t
    show spliceAll ps t (f :: (l1' ++ bad :: l2)) = spliceAll ps t (f :: (l1' ++ l2))
    cases hps : ps f.moves with
    | none => rw [spliceAll_cons_none hps, spliceAll_cons_none hps, ih]
    | some mv => rw [spliceAll_cons_some hps, spliceAll_cons_some hps, ih]

/-! ### The claims -/

/-- C1 (diff replay law, code_bug evidence): on the truncation edit
old = {1.e4 e5, 1.e4 c5}, new = {1.e4}, `compare_games` produces
removed = ["1.e4"] and added = ["1.e4"]; replaying them through
`filter_game_variations` with action include (exactly the configuration
the generated replication YAML encodes) keeps the whole old subtree,
because `should_add` matches every extension of an add pattern, so the
replayed tree's leaf set is {1.e4 e5, 1.e4 c5}, not {1.e4}: the diff
replay law stated by the spec fails on the code. -/
theorem claim_C1_diff_replay_codebug :
    (compare_games parseNoFail cexOldGame cexNewGame 1 1 none).removed_variations
        = ["1.e4"]
    ∧ (compare_games parseNoFail cexOldGame cexNewGame 1 1 none).added_variations
        = ["1.e4"]
    ∧ (∃ res, filter_game_variations parseNoFail cexOldGame
          (replayConfig (compare_games parseNoFail cexOldGame cexNewGame 1 1 none))
        = some res
      ∧ "1.e4 e5" ∈ extract_all_variation_paths res
      ∧ "1.e4 e5" ∉ extract_all_variation_paths cexNewGame) := by
  refine ⟨by decide, by decide, ⟨_, rfl, by decide, by decide⟩⟩

/-- C2 (counterexample to the claim as stated): with target path set
{"1.e4"} and a reference tree whose only leaf is 1.e4 c5, `optimize`
emits the full-leaf entry "1.e4" without validation, yet the reference
leaf "1.e4 c5" starts with that prefix and is not in the target set. -/
theorem claim_C2_covering_sound_counterexample :
    "1.e4" ∈ optimize_variation_list ["1.e4"] (some cexRefSound)
    ∧ "1.e4 c5" ∈ extract_all_variation_paths cexRefSound
    ∧ strMatchesPfx "1.e4 c5" "1.e4" = true
    ∧ parse_move_sequence_to_list "1.e4" <+: parse_move_sequence_to_list "1.e4 c5"
    ∧ "1.e4 c5" ∉ (["1.e4"] : List String) :=
  ⟨by decide, by decide, by decide, by decide, by decide⟩

/-- C2 (amended): covering soundness holds as stated provided the target
path set consists of leaf paths of the (well-formed) reference tree —
the situation of the removal phase, for which the spec asserts it: for
every emitted element `e` of `optimize`, every leaf path of the
reference tree that equals `e` or extends it is in the target set. -/
theorem claim_C2_covering_sound_amended (vars : List String) (g : PGame)
    (hgood : goodTreeB g.root = true)
    (hsub : ∀ v ∈ vars, v ∈ extract_all_variation_paths g) :
    ∀ e ∈ optimize_variation_list vars (some g),
      ∀ L ∈ extract_all_variation_paths g, strMatchesPfx L e = true → L ∈ vars :=
  optimize_sound_aux hgood hsub

/-- C2 witness: the spec §8 example; the emitted covering prefix
"1.e4 c5" only matches reference leaves inside the target set. -/
theorem claim_C2_covering_sound_witness :
    (∀ v ∈ (["1.e4 c5 2.Nf3 d6", "1.e4 c5 2.Nf3 Nc6"] : List String),
      v ∈ extract_all_variation_paths specTreeA)
    ∧ ("1.e4 c5 2.Nf3 d6" : String)
        ∈ (["1.e4 c5 2.Nf3 d6", "1.e4 c5 2.Nf3 Nc6"] : List String) :=
  ⟨by decide,
    claim_C2_covering_sound_amended ["1.e4 c5 2.Nf3 d6", "1.e4 c5 2.Nf3 Nc6"]
      specTreeA (by decide) (by decide) "1.e4 c5" (by decide)
      "1.e4 c5 2.Nf3 d6" (by decide) (by decide)⟩

/-- C3 (counterexample to the claim as stated): with target {"1.d4"} and
a reference tree whose only leaf is 1.d4 d5, the union described by the
claim contains the reference leaf "1.d4 d5" (it starts with the emitted
entry "1.d4"), which is not in the target set, so the union is a strict
superset of the target. -/
theorem claim_C3_covering_exact_counterexample :
    ("1.d4 d5" ∈ extract_all_variation_paths cexRefExact
      ∧ ∃ e ∈ optimize_variation_list ["1.d4"] (some cexRefExact),
          strMatchesPfx "1.d4 d5" e = true)
    ∧ "1.d4 d5" ∉ (["1.d4"] : List String) :=
  ⟨⟨by decide, ⟨"1.d4", by decide, by decide⟩⟩, by decide⟩

/-- C3 (amended): covering exactness holds provided the target set
consists of nonempty leaf paths of the (well-formed) reference tree: a
string is in the union of "reference leaves matching some emitted
element" and "emitted elements that are target members" iff it is in the
target set. -/
theorem claim_C3_covering_exact_amended (vars : List String) (g : PGame)
    (hgood : goodTreeB g.root = true)
    (hsub : ∀ v ∈ vars, v ∈ extract_all_variation_paths g)
    (hnn : ∀ v ∈ vars, v ≠ "") :
    ∀ L : String,
      ((L ∈ extract_all_variation_paths g ∧
          ∃ e ∈ optimize_variation_list vars (some g), strMatchesPfx L e = true)
        ∨ (L ∈ optimize_variation_list vars (some g) ∧ L ∈ vars))
      ↔ L ∈ vars := by
  intro L
  constructor
  · rintro (⟨hL, e, he, hm⟩ | ⟨_, hv⟩)
    · exact optimize_sound_aux hgood hsub e he L hL hm
    · exact hv
  · intro hv
    left
    exact ⟨hsub L hv, optimize_complete_aux hgood hsub hnn L hv⟩

/-- C3 witness: in the spec §8 example the target leaf
"1.e4 c5 2.Nf3 Nc6" is recovered by the union (it matches the emitted
covering prefix "1.e4 c5"). -/
theorem claim_C3_covering_exact_witness :
    ("1.e4 c5 2.Nf3 Nc6" ∈ extract_all_variation_paths specTreeA ∧
      ∃ e ∈ optimize_variation_list ["1.e4 c5 2.Nf3 d6", "1.e4 c5 2.Nf3 Nc6"]
          (some specTreeA), strMatchesPfx "1.e4 c5 2.Nf3 Nc6" e = true)
    ∨ ("1.e4 c5 2.Nf3 Nc6" ∈ optimize_variation_list
          ["1.e4 c5 2.Nf3 d6", "1.e4 c5 2.Nf3 Nc6"] (some specTreeA)
        ∧ ("1.e4 c5 2.Nf3 Nc6" : String)
            ∈ (["1.e4 c5 2.Nf3 d6", "1.e4 c5 2.Nf3 Nc6"] : List String)) :=
  (claim_C3_covering_exact_amended ["1.e4 c5 2.Nf3 d6", "1.e4 c5 2.Nf3 Nc6"]
    specTreeA (by decide) (by decide) (by decide) "1.e4 c5 2.Nf3 Nc6").mpr (by decide)

/-- C4 (union law): if one filter record (same move string, same depth
guard) occurs in both the remove list and the add list of an
action-include ruleset and its pattern parses to the move path P, then
the filtered game contains the node at path P: either the traversal
keeps it because add overrides remove, or the unconditional add-splice
loop re-creates it. -/
theorem claim_C4_union_law (ps : String → Option (List String)) (g : PGame)
    (cfg : GameConfig) (f : VariationFilter) (pm : List String)
    (hact : cfg.action = .gInclude)
    (hparse : ps f.moves = some pm)
    (hrem : f ∈ cfg.remove_variations.getD [])
    (hadd : f ∈ cfg.add_variations.getD []) :
    ∃ res, filter_game_variations ps g cfg = some res
      ∧ hasPathB res.root pm = true := by
  rcases cfg with ⟨idx, act, nm, rv, av, md, mnd⟩
  simp only at hact hrem hadd
  subst hact
  refine ⟨_, rfl, ?_⟩
  show hasPathB (spliceAll ps
    (.node "" [] (filterKids ps rv av g.root.children [])) (av.getD [])) pm = true
  rcases List.append_of_mem hadd with ⟨l1, l2, hsplit⟩
  rw [hsplit]
  exact spliceAll_has ps l1 f l2 _ pm hparse

/-- C4 witness: the filter "1.e4 e5" with depth guard 1 in both lists of
an include config; the path e4 e5 is present in the filtered game. -/
theorem claim_C4_union_law_witness :
    ∃ res, filter_game_variations parseNoFail cexOldGame
        ⟨1, .gInclude, none, some [⟨"1.e4 e5", none, some 1⟩],
          some [⟨"1.e4 e5", none, some 1⟩], none, none⟩ = some res
      ∧ hasPathB res.root ["e4", "e5"] = true :=
  claim_C4_union_law parseNoFail cexOldGame
    ⟨1, .gInclude, none, some [⟨"1.e4 e5", none, some 1⟩],
      some [⟨"1.e4 e5", none, some 1⟩], none, none⟩
    ⟨"1.e4 e5", none, some 1⟩ ["e4", "e5"] rfl (by decide) (by decide) (by decide)

/-- C5 (counterexample to the claim as stated): a depth guard of 0 is
falsy in Python and therefore ignored: the pattern "1.e4" with depth 0
adds the path [e4] of length 1 even though 1 exceeds the guard 0, so
"a path longer than a present guard value (including a guard of 0) is
not added" is false on the code. -/
theorem claim_C5_add_guard_counterexample :
    shouldAddLoop parseNoFail ["e4"] [⟨"1.e4", none, some 0⟩] = true
    ∧ ¬ (∃ f ∈ ([⟨"1.e4", none, some 0⟩] : List VariationFilter), ∃ pm,
        parseNoFail f.moves = some pm ∧ pm <+: ["e4"] ∧
          (f.depth = none ∨ ((["e4"] : List String).length : Int) ≤ f.depth.getD 0)) := by
  refine ⟨by decide, ?_⟩
  rintro ⟨f, hf, pm, hpm, hpre, hguard⟩
  have hfe : f = ⟨"1.e4", none, some 0⟩ := List.mem_singleton.mp hf
  subst hfe
  rcases hguard with h | h
  · exact absurd h (by simp)
  · revert h
    decide

/-- C5 (amended): `should_add` is true iff the path matches (equals or
extends) the parsed pattern of some add filter and the filter carries no
depth guard, or a guard of 0 (ignored through Python falsiness), or the
path's length does not exceed the guard; unparsable filters never
match. -/
theorem claim_C5_add_guard_amended (ps : String → Option (List String))
    (movePath : List String) (afs : List VariationFilter) :
    shouldAddLoop ps movePath afs = true ↔
      ∃ f ∈ afs, ∃ pm, ps f.moves = some pm ∧ pm <+: movePath ∧
        (∀ dv, f.depth = some dv → dv = 0 ∨ (movePath.length : Int) ≤ dv) :=
  shouldAddLoop_iff ps movePath afs

/-- C6 (depth trim bound): every leaf path of `trim_game_depth g d` has
at most d moves. -/
theorem claim_C6_trim_depth_bound (g : PGame) (d : Nat) (p : List String)
    (hp : p ∈ leafPathsT (trim_game_depth g d).root []) : p.length ≤ d := by
  unfold trim_game_depth at hp
  by_cases hd : d = 0
  · rw [if_pos hd] at hp
    unfold leafPathsT at hp
    simp only [List.mem_singleton] at hp
    subst hp
    simp
  · rw [if_neg hd] at hp
    show p.length ≤ d
    cases htk : trimKids d g.root.children 0 with
    | nil =>
      rw [htk] at hp
      unfold leafPathsT at hp
      simp only [List.mem_singleton] at hp
      subst hp
      simp
    | cons x xs =>
      rw [htk] at hp
      unfold leafPathsT at hp
      rw [← htk] at hp
      have := trimKids_leaf_len d g.root.children 0 [] p (by omega) hp
      simpa using this

/-- C6 witness: trimming the two-ply example game to one ply leaves the
single leaf path [e4], of length 1. -/
theorem claim_C6_trim_depth_bound_witness :
    (["e4"] ∈ leafPathsT (trim_game_depth cexOldGame 1).root [])
    ∧ (["e4"] : List String).length ≤ 1 :=
  ⟨by decide, claim_C6_trim_depth_bound cexOldGame 1 ["e4"] (by decide)⟩

/-- C7 (local recovery): a filter whose pattern does not parse (malformed
or illegal move sequence) is skipped by both matching loops and by the
add-splice loop, so filtering with it present equals filtering with it
deleted, both when it sits in the remove list and in the add list. -/
theorem claim_C7_local_recovery (ps : String → Option (List String)) (g : PGame)
    (cfg : GameConfig) (bad : VariationFilter) (hbad : ps bad.moves = none)
    (l1 l2 : List VariationFilter) :
    (filter_game_variations ps g
        { cfg with remove_variations := some (l1 ++ bad :: l2) }
      = filter_game_variations ps g
        { cfg with remove_variations := some (l1 ++ l2) })
    ∧ (filter_game_variations ps g
        { cfg with add_variations := some (l1 ++ bad :: l2) }
      = filter_game_variations ps g
        { cfg with add_variations := some (l1 ++ l2) }) := by
  rcases cfg with ⟨idx, act, nm, rv, av, md, mnd⟩
  cases act with
  | gSkip => exact ⟨rfl, rfl⟩
  | gSkipKeepHeaders => exact ⟨rfl, rfl⟩
  | gInclude =>
    constructor
    · have hss : ∀ mp, should_skip_variation ps mp (some (l1 ++ bad :: l2)) av
          = should_skip_variation ps mp (some (l1 ++ l2)) av := by
        intro mp
        unfold should_skip_variation
        rw [show (some (l1 ++ bad :: l2)).getD ([] : List VariationFilter)
          = l1 ++ bad :: l2 from rfl]
        rw [show (some (l1 ++ l2)).getD ([] : List VariationFilter)
          = l1 ++ l2 from rfl]
        rw [shouldRemoveLoop_skip_bad ps mp hbad l1 l2]
      show (some (⟨g.headers, spliceAll ps (.node "" []
          (filterKids ps (some (l1 ++ bad :: l2)) av g.root.children []))
          (av.getD [])⟩ : PGame) : Option PGame)
        = some (⟨g.headers, spliceAll ps (.node "" []
          (filterKids ps (some (l1 ++ l2)) av g.root.children []))
          (av.getD [])⟩ : PGame)
      rw [filterKids_congr ps (some (l1 ++ bad :: l2)) av (some (l1 ++ l2)) av
        hss g.root.children []]
    · have hss : ∀ mp, should_skip_variation ps mp rv (some (l1 ++ bad :: l2))
          = should_skip_variation ps mp rv (some (l1 ++ l2)) := by
        intro mp
        unfold should_skip_variation
        rw [show (some (l1 ++ bad :: l2)).getD ([] : List VariationFilter)
          = l1 ++ bad :: l2 from rfl]
        rw [show (some (l1 ++ l2)).getD ([] : List VariationFilter)
          = l1 ++ l2 from rfl]
        rw [shouldAddLoop_skip_bad ps mp hbad l1 l2]
      show (some (⟨g.headers, spliceAll ps (.node "" []
          (filterKids ps rv (some (l1 ++ bad :: l2)) g.root.children []))
          (l1 ++ bad :: l2)⟩ : PGame) : Option PGame)
        = some (⟨g.headers, spliceAll ps (.node "" []
          (filterKids ps rv (some (l1 ++ l2)) g.root.children []))
          (l1 ++ l2)⟩ : PGame)
      rw [filterKids_congr ps rv (some (l1 ++ bad :: l2)) rv (some (l1 ++ l2))
        hss g.root.children []]
      rw [spliceAll_skip_bad ps hbad l1 l2]

/-- C7 witness: the malformed pattern "??" inside a remove or add list
does not change the result of filtering the example game. -/
theorem claim_C7_local_recovery_witness :
    (filter_game_variations parseDemo cexOldGame
        { index := 1, action := .gInclude, name := none,
          remove_variations := some ([] ++ (⟨"??", none, none⟩ : VariationFilter)
            :: [⟨"1.e4 c5", none, none⟩]),
          add_variations := none, max_depth := none, min_depth := none }
      = filter_game_variations parseDemo cexOldGame
        { index := 1, action := .gInclude, name := none,
          remove_variations := some ([] ++ [⟨"1.e4 c5", none, none⟩]),
          add_variations := none, max_depth := none, min_depth := none })
    ∧ (filter_game_variations parseDemo cexOldGame
        { index := 1, action := .gInclude, name := none,
          remove_variations := none,
          add_variations := some ([] ++ (⟨"??", none, none⟩ : VariationFilter)
            :: [⟨"1.e4 c5", none, none⟩]),
          max_depth := none, min_depth := none }
      = filter_game_variations parseDemo cexOldGame
        { index := 1, action := .gInclude, name := none,
          remove_variations := none,
          add_variations := some ([] ++ [⟨"1.e4 c5", none, none⟩]),
          max_depth := none, min_depth := none }) :=
  claim_C7_local_recovery parseDemo cexOldGame
    { index := 1, action := .gInclude, name := none, remove_variations := none,
      add_variations := none, max_depth := none, min_depth := none }
    ⟨"??", none, none⟩ (by decide) [] [⟨"1.e4 c5", none, none⟩]

/-- C9 (conservative asymmetry): every element emitted by `optimize` on a
canonically-formatted target set either is itself a member of the target
set (an un-shortened full-leaf entry) or has at least one matching
reference-tree leaf (the nonempty-match requirement of
`_can_use_as_covering_point`); a candidate prefix with no matching
reference leaf is therefore never emitted as a shortened covering
point. -/
theorem claim_C9_conservative_asymmetry (vars : List String) (g : PGame)
    (hcanon : ∀ v ∈ vars, ∃ p, goodPathB p = true ∧ v = format_move_list p) :
    ∀ e ∈ optimize_variation_list vars (some g),
      e ∈ vars ∨ ∃ L ∈ extract_all_variation_paths g, strMatchesPfx L e = true :=
  optimize_conservative_aux hcanon

/-- C9 witness: adding the brand-new branch 1.d4 against a reference tree
without it emits the full leaf "1.d4" itself. -/
theorem claim_C9_conservative_asymmetry_witness :
    ("1.d4" : String) ∈ (["1.d4"] : List String)
      ∨ ∃ L ∈ extract_all_variation_paths specTreeA, strMatchesPfx L "1.d4" = true :=
  claim_C9_conservative_asymmetry ["1.d4"] specTreeA
    (fun v hv => by
      have hv' : v = "1.d4" := List.mem_singleton.mp hv
      subst hv'
      exact ⟨["d4"], by decide, by decide⟩)
    "1.d4" (by decide)

/-- C10 (childless root): a game whose root has no children — e.g. the
result of action skip-keep-headers — counts as one variation, and its
extracted variation-path set is the singleton containing the empty
string. -/
theorem claim_C10_childless_root (hs : List (String × String)) (c : String)
    (n : List Nat) :
    count_variations ⟨hs, .node c n []⟩ = 1
    ∧ extract_all_variation_paths ⟨hs, .node c n []⟩ = [""] :=
  ⟨rfl, rfl⟩
